import Mathlib

/-!
Verification of the offline record-linkage pipeline (industry-type
classification): a shallow embedding, in Lean 4, of the normalization,
scoring, ranking, store-lookup and orchestration code, together with
theorems settling the specification claims.

Conventions of the embedding:
* Python strings are modeled as Lean `String` / `List Char`; character
  classes are ASCII (the data processed by the pipeline is ASCII).
* Python floats are IEEE-754 binary64 values, and every finite such value
  is a rational number; float values are therefore carried as the exact
  rationals they denote, and each arithmetic operation of the source
  rounds its exact result to the nearest representable double, ties to
  even (`round64`, `fadd64`, `fmul64` below).  Comparisons on floats
  coincide with the rational order on the carried values, so only the
  arithmetic needs the rounding.
* Python `re` substitutions used by the source are embedded as the
  executable character-run transformations they denote, documented at each
  definition.
* Fallible Python code (functions that can raise) returns `Option`/`Except`.
* Collaborator modules that live outside the scored core (the candidate
  generator, the resolver, the classification lookup, the similarity
  measure from `difflib`) are passed as function parameters, mirroring how
  the source receives them as imported callables.
-/

/-! ### Basic Python-style string helpers -/

/-- ASCII uppercase conversion of one character, the model of Python
`str.upper` on the ASCII range: codepoints 97–122 (`a`–`z`) are shifted
down by 32, all others are unchanged. -/
def pyUpperChar (c : Char) : Char :=
  if 97 ≤ c.toNat ∧ c.toNat ≤ 122 then Char.ofNat (c.toNat - 32) else c

/-- Model of Python `str.strip` on the leading side: drop leading
whitespace characters. -/
def stripStart (l : List Char) : List Char := l.dropWhile Char.isWhitespace

/-- Model of Python `str.strip`: drop leading and trailing whitespace. -/
def pyStrip (l : List Char) : List Char :=
  ((stripStart l).reverse.dropWhile Char.isWhitespace).reverse

/-- String-level `str.strip`. -/
def pyStripS (s : String) : String := ⟨pyStrip s.toList⟩

/-- String-level `str.upper` (ASCII model). -/
def pyUpperS (s : String) : String := ⟨s.toList.map pyUpperChar⟩

/-- Model of Python `str.zfill w` for sign-free inputs: left-pad with `'0'`
to length `w` (an already longer list is returned unchanged, because
`w - length` is then `0`). -/
def zfill (w : ℕ) (l : List Char) : List Char :=
  List.replicate (w - l.length) '0' ++ l

/-! ### Postal-code normalization

Source: `scoring.py` lines 30–33 (`_norm_zip5`) and `orchestrator.py`
lines 49–52 (`_zip5`).  Both first delete every non-digit character
(`re.sub(r"\D+", "", z)`, embedded as `List.filter Char.isDigit`), then
take the first five digits if at least five remain, and otherwise
left-pad the digits with zeros to length five (`str.zfill(5)`).
`_norm_zip5` additionally short-circuits a falsy (empty) input to `""`;
`_zip5` has no such guard. -/

/-- Digit subsequence of a string: the model of `re.sub(r"\D+", "", z)`,
which deletes every maximal run of non-digits and therefore keeps exactly
the digit characters in order. -/
def digitsOf (s : String) : List Char := s.toList.filter Char.isDigit

/-- Embedding of `_norm_zip5` (scoring.py:30–33). -/
def normZip5 (z : String) : String :=
  if z = "" then ""
  else
    let digits := digitsOf z
    if 5 ≤ digits.length then ⟨digits.take 5⟩ else ⟨zfill 5 digits⟩

/-- Embedding of `_zip5` (orchestrator.py:49–52).  Unlike `_norm_zip5`
there is no guard for the empty string: `"".zfill(5)` is `"00000"`. -/
def zip5Orch (s : String) : String :=
  let ds := digitsOf s
  if 5 ≤ ds.length then ⟨ds.take 5⟩ else ⟨zfill 5 ds⟩

theorem zfill_length_of_le {w : ℕ} {l : List Char} (h : l.length ≤ w) :
    (zfill w l).length = w := by
  simp [zfill]
  omega

theorem zfill_length_of_ge {w : ℕ} {l : List Char} (h : w ≤ l.length) :
    zfill w l = l := by
  simp [zfill, Nat.sub_eq_zero_of_le h]

/-! ### Company-name normalization

Source: `orchestrator.py` lines 17–28, the fallback `_norm_name` used when
`sec_normalize` is unavailable:

* uppercase and strip;
* `_PUNCT = re.compile(r"[^A-Z0-9]+")`: every maximal run of characters
  outside `A`–`Z`, `0`–`9` is replaced by a single space (note that this
  class also matches spaces);
* `re.sub(r"\s+", " ", s).strip()`: collapse whitespace runs and strip;
* then, until a fixed point is reached, wrap the string in spaces and
  apply `_SUFFIX.sub(" ", s)` where `_SUFFIX` matches a legal-entity
  suffix token bounded by whitespace (or the string ends), and re-collapse
  whitespace.

After the first three steps the string is a canonical join of non-empty
uppercase-alphanumeric tokens separated by single spaces, so the loop is
embedded on token lists.  One `re.sub` pass over `" t1 t2 ... tn "` is
non-overlapping and scans left to right: a match of the token `ti` consumes
the space before and after `ti`, so the following token `t(i+1)` cannot be
matched in the same pass (its preceding whitespace was consumed) and is
kept; matching resumes with `t(i+2)`.  That is exactly `stripPass` below.
-/

/-- Character class `[A-Z0-9]` (codepoints 65–90 and 48–57), the
complement of the `_PUNCT` regex class. -/
def isUpperAlnum (c : Char) : Bool :=
  (65 ≤ c.toNat && c.toNat ≤ 90) || (48 ≤ c.toNat && c.toNat ≤ 57)

/-- Replace every maximal run of characters outside `[A-Z0-9]` by a single
space: the model of `_PUNCT.sub(" ", s)`.  The flag records whether the
previous character was part of such a run (in which case further run
characters emit nothing). -/
def punctSubAux : Bool → List Char → List Char
  | _, [] => []
  | inRun, c :: cs =>
    if isUpperAlnum c then c :: punctSubAux false cs
    else if inRun then punctSubAux true cs
    else ' ' :: punctSubAux true cs

/-- Replace every maximal whitespace run by a single space: the model of
`re.sub(r"\s+", " ", s)`. -/
def wsCollapseAux : Bool → List Char → List Char
  | _, [] => []
  | inRun, c :: cs =>
    if c.isWhitespace then
      if inRun then wsCollapseAux true cs else ' ' :: wsCollapseAux true cs
    else c :: wsCollapseAux false cs

/-- The pre-loop normalization stage of `_norm_name`:
`s.upper().strip()`, then `_PUNCT.sub(" ", s)`, then
`re.sub(r"\s+", " ", s).strip()`. -/
def nameStage1 (l : List Char) : List Char :=
  pyStrip (wsCollapseAux false (punctSubAux false (pyStrip (l.map pyUpperChar))))

/-- Split a character list into its maximal whitespace-free words
(the view of the canonical string as a token list; Python's `\s+` split
with empty pieces discarded).  The accumulator holds the current word,
reversed. -/
def splitWordsAux : List Char → List Char → List (List Char)
  | [], acc => if acc = [] then [] else [acc.reverse]
  | c :: cs, acc =>
    if c.isWhitespace then
      if acc = [] then splitWordsAux cs [] else acc.reverse :: splitWordsAux cs []
    else splitWordsAux cs (c :: acc)

/-- Words of a character list. -/
def splitWords (l : List Char) : List (List Char) := splitWordsAux l []

/-- Join a token list with single spaces (`" ".join`). -/
def joinSpace : List (List Char) → List Char
  | [] => []
  | [t] => t
  | t :: ts => t ++ ' ' :: joinSpace ts

/-- The legal-entity suffix vocabulary of the `_SUFFIX` regex
(orchestrator.py:18).  The alternation is applied to uppercase tokens, so
matching a whitespace-bounded token is exact membership in this list (the
`L.L.C.` alternative can never match a token at this stage, punctuation
having been removed, but it is kept for fidelity). -/
def legalSuffixes : List (List Char) :=
  ["CORPORATION", "CORP", "INCORPORATED", "INC", "LLC", "L.L.C.", "LTD",
   "LIMITED", "PLC", "CO", "COMPANY", "HOLDING", "HOLDINGS"].map String.toList

/-- One non-overlapping `_SUFFIX.sub(" ", " " + s + " ")` pass followed by
whitespace re-collapse, on the token-list view: a suffix token is removed,
and because its match consumed the following separator the next token is
always kept; scanning resumes after it. -/
def stripPass : List (List Char) → List (List Char)
  | [] => []
  | t :: ts =>
    if t ∈ legalSuffixes then
      match ts with
      | [] => []
      | u :: rest => u :: stripPass rest
    else t :: stripPass ts

/-- The `while prev != s and s:` loop of `_norm_name`, with an explicit
iteration budget.  Each productive pass removes at least one token, so a
budget of `ts.length` always reaches the loop's exit condition; this is
proved below (`stripLoop_spec`), making the budgeted function an exact
model of the unbounded loop. -/
def stripLoop : ℕ → List (List Char) → List (List Char)
  | 0, ts => ts
  | fuel + 1, ts =>
    if ts = [] then ts
    else
      let ts' := stripPass ts
      if ts' = ts then ts else stripLoop fuel ts'

/-- Embedding of `_norm_name` (orchestrator.py:20–28). -/
def normName (s : String) : String :=
  let toks := splitWords (nameStage1 s.toList)
  ⟨joinSpace (stripLoop toks.length toks)⟩

/-! ### Facts about the suffix-strip loop -/

theorem stripPass_sublist : ∀ ts : List (List Char), (stripPass ts).Sublist ts
  | [] => by simp [stripPass]
  | t :: ts => by
    by_cases h : t ∈ legalSuffixes
    · cases ts with
      | nil =>
        have he : stripPass [t] = [] := by simp [stripPass, h]
        rw [he]; exact List.nil_sublist _
      | cons u rest =>
        have he : stripPass (t :: u :: rest) = u :: stripPass rest := by
          simp [stripPass, h]
        rw [he]
        exact ((stripPass_sublist rest).cons₂ u).trans (List.sublist_cons_self t _)
    · have he : stripPass (t :: ts) = t :: stripPass ts := by
        cases ts <;> simp [stripPass, h]
      rw [he]
      exact (stripPass_sublist ts).cons₂ t

/-- Unfolding equation for `stripPass` on a non-suffix head token. -/
theorem stripPass_cons_of_not_mem {t : List Char} (ts : List (List Char))
    (h : t ∉ legalSuffixes) : stripPass (t :: ts) = t :: stripPass ts := by
  cases ts <;> simp [stripPass, h]

theorem stripPass_length_lt {ts : List (List Char)} (h : stripPass ts ≠ ts) :
    (stripPass ts).length < ts.length := by
  rcases Nat.lt_or_ge (stripPass ts).length ts.length with hlt | hge
  · exact hlt
  · exact absurd ((stripPass_sublist ts).eq_of_length
      (Nat.le_antisymm ((stripPass_sublist ts).length_le) hge)) h

theorem stripLoop_spec :
    ∀ (fuel : ℕ) (ts : List (List Char)), ts.length ≤ fuel →
      ∃ n ≤ ts.length, stripLoop fuel ts = stripPass^[n] ts ∧
        stripPass^[n + 1] ts = stripPass^[n] ts := by
  intro fuel
  induction fuel with
  | zero =>
    intro ts h
    have hts : ts = [] := List.length_eq_zero.mp (Nat.le_zero.mp h)
    subst hts
    exact ⟨0, Nat.le_refl _, rfl, rfl⟩
  | succ fuel ih =>
    intro ts h
    by_cases hnil : ts = []
    · subst hnil
      exact ⟨0, Nat.le_refl _, by simp [stripLoop], rfl⟩
    · by_cases hfix : stripPass ts = ts
      · refine ⟨0, Nat.zero_le _, ?_, ?_⟩
        · simp [stripLoop, hnil, hfix]
        · simpa using hfix
      · have hlt : (stripPass ts).length < ts.length := stripPass_length_lt hfix
        have hle : (stripPass ts).length ≤ fuel := by omega
        obtain ⟨n, hn, heq, hfixn⟩ := ih (stripPass ts) hle
        refine ⟨n + 1, by omega, ?_, ?_⟩
        · simpa [stripLoop, hnil, hfix, Function.iterate_succ_apply] using heq
        · simpa [Function.iterate_succ_apply] using hfixn

theorem stripLoop_of_fix {ts : List (List Char)} (fuel : ℕ)
    (h : stripPass ts = ts) : stripLoop fuel ts = ts := by
  cases fuel with
  | zero => rfl
  | succ fuel => by_cases hnil : ts = [] <;> simp [stripLoop, hnil, h]

theorem stripPass_stripLoop (fuel : ℕ) (ts : List (List Char))
    (h : ts.length ≤ fuel) : stripPass (stripLoop fuel ts) = stripLoop fuel ts := by
  obtain ⟨n, _, heq, hfix⟩ := stripLoop_spec fuel ts h
  rw [heq, ← Function.iterate_succ_apply' stripPass n ts]
  exact hfix

theorem stripLoop_sublist : ∀ (fuel : ℕ) (ts : List (List Char)),
    (stripLoop fuel ts).Sublist ts := by
  intro fuel
  induction fuel with
  | zero => intro ts; exact List.Sublist.refl _
  | succ fuel ih =>
    intro ts
    by_cases hnil : ts = []
    · simp [stripLoop, hnil]
    · by_cases hfix : stripPass ts = ts
      · simp [stripLoop, hnil, hfix]
      · simpa [stripLoop, hnil, hfix] using (ih (stripPass ts)).trans (stripPass_sublist ts)

/-! ### Character-class facts -/

theorem isUpperAlnum_not_ws {c : Char} (h : isUpperAlnum c = true) :
    c.isWhitespace = false := by
  cases hws : c.isWhitespace
  · rfl
  · exfalso
    have hmem : c = ' ' ∨ c = '\t' ∨ c = '\r' ∨ c = '\n' := by
      simpa [Char.isWhitespace, or_assoc] using hws
    rcases hmem with rfl | rfl | rfl | rfl <;> simp [isUpperAlnum] at h

theorem isUpperAlnum_pyUpperChar {c : Char} (h : isUpperAlnum c = true) :
    pyUpperChar c = c := by
  simp only [isUpperAlnum, Bool.or_eq_true, Bool.and_eq_true, decide_eq_true_eq] at h
  unfold pyUpperChar
  split
  · omega
  · rfl

/-! ### Characters produced by the normalization stages -/

theorem mem_punctSubAux (l : List Char) : ∀ (b : Bool) (c : Char),
    c ∈ punctSubAux b l → isUpperAlnum c = true ∨ c = ' ' := by
  induction l with
  | nil => intro b c h; simp [punctSubAux] at h
  | cons d ds ih =>
    intro b c h
    by_cases hd : isUpperAlnum d
    · simp only [punctSubAux, hd, if_true] at h
      rcases List.mem_cons.mp h with rfl | h
      · exact Or.inl hd
      · exact ih false c h
    · by_cases hb : b
      · simp only [punctSubAux, hd, hb, if_false, if_true] at h
        exact ih true c h
      · simp only [punctSubAux, hd, hb, if_false] at h
        rcases List.mem_cons.mp h with rfl | h
        · exact Or.inr rfl
        · exact ih true c h

theorem mem_wsCollapseAux (l : List Char) : ∀ (b : Bool) (c : Char),
    c ∈ wsCollapseAux b l → c ∈ l ∨ c = ' ' := by
  induction l with
  | nil => intro b c h; simp [wsCollapseAux] at h
  | cons d ds ih =>
    intro b c h
    by_cases hd : d.isWhitespace
    · by_cases hb : b
      · simp only [wsCollapseAux, hd, hb, if_true] at h
        rcases ih true c h with h | h
        · exact Or.inl (List.mem_cons_of_mem d h)
        · exact Or.inr h
      · simp only [wsCollapseAux, hd, hb, if_true, if_false] at h
        rcases List.mem_cons.mp h with rfl | h
        · exact Or.inr rfl
        · rcases ih true c h with h | h
          · exact Or.inl (List.mem_cons_of_mem d h)
          · exact Or.inr h
    · simp only [wsCollapseAux, hd, if_false] at h
      rcases List.mem_cons.mp h with rfl | h
      · exact Or.inl (List.mem_cons_self _ _)
      · rcases ih false c h with h | h
        · exact Or.inl (List.mem_cons_of_mem d h)
        · exact Or.inr h

theorem mem_pyStrip {l : List Char} {c : Char} (h : c ∈ pyStrip l) : c ∈ l := by
  unfold pyStrip stripStart at h
  rw [List.mem_reverse] at h
  have h1 := (List.dropWhile_sublist (l := (l.dropWhile Char.isWhitespace).reverse)
    Char.isWhitespace).mem h
  rw [List.mem_reverse] at h1
  exact (List.dropWhile_sublist Char.isWhitespace).mem h1

theorem mem_nameStage1 {l : List Char} {c : Char} (h : c ∈ nameStage1 l) :
    isUpperAlnum c = true ∨ c = ' ' := by
  unfold nameStage1 at h
  have h1 := mem_pyStrip h
  rcases mem_wsCollapseAux _ false c h1 with h2 | h2
  · exact mem_punctSubAux _ false c h2
  · exact Or.inr h2

theorem splitWordsAux_token (l : List Char) : ∀ (acc : List Char)
    (t : List Char), t ∈ splitWordsAux l acc →
    t ≠ [] ∧ ∀ c ∈ t, (c ∈ l ∧ c.isWhitespace = false) ∨ c ∈ acc := by
  induction l with
  | nil =>
    intro acc t h
    by_cases hacc : acc = []
    · simp [splitWordsAux, hacc] at h
    · simp only [splitWordsAux, hacc, if_false] at h
      rcases List.mem_singleton.mp h with rfl
      refine ⟨by simpa using hacc, fun c hc => Or.inr ?_⟩
      exact List.mem_reverse.mp hc
  | cons d ds ih =>
    intro acc t h
    by_cases hd : d.isWhitespace
    · by_cases hacc : acc = []
      · simp only [splitWordsAux, hd, hacc, if_true] at h
        obtain ⟨hne, hmem⟩ := ih [] t h
        refine ⟨hne, fun c hc => ?_⟩
        rcases hmem c hc with ⟨h1, h2⟩ | h1
        · exact Or.inl ⟨List.mem_cons_of_mem d h1, h2⟩
        · simp at h1
      · simp only [splitWordsAux, hd, hacc, if_true, if_false] at h
        rcases List.mem_cons.mp h with rfl | h
        · refine ⟨by simpa using hacc, fun c hc => Or.inr (List.mem_reverse.mp hc)⟩
        · obtain ⟨hne, hmem⟩ := ih [] t h
          refine ⟨hne, fun c hc => ?_⟩
          rcases hmem c hc with ⟨h1, h2⟩ | h1
          · exact Or.inl ⟨List.mem_cons_of_mem d h1, h2⟩
          · simp at h1
    · simp only [splitWordsAux, hd, if_false] at h
      obtain ⟨hne, hmem⟩ := ih (d :: acc) t h
      refine ⟨hne, fun c hc => ?_⟩
      rcases hmem c hc with ⟨h1, h2⟩ | h1
      · exact Or.inl ⟨List.mem_cons_of_mem d h1, h2⟩
      · rcases List.mem_cons.mp h1 with rfl | h1
        · exact Or.inl ⟨List.mem_cons_self _ _, by simpa using hd⟩
        · exact Or.inr h1

/-- Canonical token lists: the shape produced by the pre-loop stage of the
name normalizer, namely non-empty tokens of `[A-Z0-9]` characters. -/
def CanonToks (ts : List (List Char)) : Prop :=
  ∀ t ∈ ts, t ≠ [] ∧ ∀ c ∈ t, isUpperAlnum c = true

theorem canonToks_splitWords_nameStage1 (l : List Char) :
    CanonToks (splitWords (nameStage1 l)) := by
  intro t ht
  obtain ⟨hne, hmem⟩ := splitWordsAux_token _ [] t ht
  refine ⟨hne, fun c hc => ?_⟩
  rcases hmem c hc with ⟨h1, h2⟩ | h1
  · rcases mem_nameStage1 h1 with h3 | h3
    · exact h3
    · subst h3; simp at h2
  · simp at h1

theorem canonToks_sublist {ts ts' : List (List Char)} (hsub : ts'.Sublist ts)
    (h : CanonToks ts) : CanonToks ts' :=
  fun t ht => h t (hsub.mem ht)

/-! ### The canonical join/split round trip -/

theorem joinSpace_cons {t : List Char} {ts : List (List Char)} (h : ts ≠ []) :
    joinSpace (t :: ts) = t ++ ' ' :: joinSpace ts := by
  cases ts with
  | nil => exact absurd rfl h
  | cons u us => rfl

theorem splitWordsAux_nonws_append :
    ∀ (t : List Char), (∀ c ∈ t, c.isWhitespace = false) →
      ∀ (l acc : List Char), splitWordsAux (t ++ l) acc = splitWordsAux l (t.reverse ++ acc) := by
  intro t
  induction t with
  | nil => intro _ l acc; rfl
  | cons d ds ih =>
    intro h l acc
    have hd : d.isWhitespace = false := h d (List.mem_cons_self _ _)
    have hds : ∀ c ∈ ds, c.isWhitespace = false :=
      fun c hc => h c (List.mem_cons_of_mem d hc)
    calc splitWordsAux (d :: (ds ++ l)) acc
        = splitWordsAux (ds ++ l) (d :: acc) := by simp [splitWordsAux, hd]
      _ = splitWordsAux l (ds.reverse ++ (d :: acc)) := ih hds l (d :: acc)
      _ = splitWordsAux l ((d :: ds).reverse ++ acc) := by simp

theorem splitWords_joinSpace :
    ∀ (ts : List (List Char)),
      (∀ t ∈ ts, t ≠ [] ∧ ∀ c ∈ t, c.isWhitespace = false) →
      splitWords (joinSpace ts) = ts := by
  intro ts
  induction ts with
  | nil => intro _; rfl
  | cons t ts ih =>
    intro h
    obtain ⟨hne, hnw⟩ := h t (List.mem_cons_self _ _)
    have hrevne : t.reverse ≠ [] := by simpa using hne
    cases ts with
    | nil =>
      show splitWordsAux t [] = [t]
      have := splitWordsAux_nonws_append t hnw [] []
      rw [List.append_nil] at this
      rw [this]
      simp [splitWordsAux, hrevne]
    | cons u us =>
      have hrest : ∀ v ∈ u :: us, v ≠ [] ∧ ∀ c ∈ v, c.isWhitespace = false :=
        fun v hv => h v (List.mem_cons_of_mem t hv)
      show splitWordsAux (joinSpace (t :: u :: us)) [] = t :: u :: us
      rw [joinSpace_cons (by simp)]
      rw [splitWordsAux_nonws_append t hnw _ [], List.append_nil]
      have hws : (' ' : Char).isWhitespace = true := by decide
      calc splitWordsAux (' ' :: joinSpace (u :: us)) t.reverse
          = t.reverse.reverse :: splitWordsAux (joinSpace (u :: us)) [] := by
            simp [splitWordsAux, hws, hrevne]
        _ = t :: u :: us := by
            rw [List.reverse_reverse]
            rw [show splitWordsAux (joinSpace (u :: us)) [] = splitWords (joinSpace (u :: us)) from rfl]
            rw [ih hrest]

theorem canonToks_nonws {ts : List (List Char)} (h : CanonToks ts) :
    ∀ t ∈ ts, t ≠ [] ∧ ∀ c ∈ t, c.isWhitespace = false := by
  intro t ht
  obtain ⟨hne, halnum⟩ := h t ht
  exact ⟨hne, fun c hc => isUpperAlnum_not_ws (halnum c hc)⟩

theorem mem_joinSpace : ∀ (ts : List (List Char)) (c : Char),
    c ∈ joinSpace ts → (∃ t ∈ ts, c ∈ t) ∨ c = ' ' := by
  intro ts
  induction ts with
  | nil => intro c h; simp [joinSpace] at h
  | cons t ts ih =>
    intro c h
    cases ts with
    | nil =>
      exact Or.inl ⟨t, List.mem_cons_self _ _, h⟩
    | cons u us =>
      rw [joinSpace_cons (by simp)] at h
      rcases List.mem_append.mp h with h | h
      · exact Or.inl ⟨t, List.mem_cons_self _ _, h⟩
      · rcases List.mem_cons.mp h with rfl | h
        · exact Or.inr rfl
        · rcases ih c h with ⟨v, hv, hc⟩ | h
          · exact Or.inl ⟨v, List.mem_cons_of_mem t hv, hc⟩
          · exact Or.inr h

theorem map_id_of_mem {f : Char → Char} :
    ∀ (l : List Char), (∀ c ∈ l, f c = c) → l.map f = l := by
  intro l
  induction l with
  | nil => intro _; rfl
  | cons c cs ih =>
    intro h
    simp only [List.map_cons]
    rw [h c (List.mem_cons_self _ _), ih (fun d hd => h d (List.mem_cons_of_mem c hd))]

/-! ### The pre-loop stage fixes canonical joins -/

theorem punctSubAux_cons (b : Bool) (c : Char) (cs : List Char) :
    punctSubAux b (c :: cs) =
      if isUpperAlnum c then c :: punctSubAux false cs
      else if b then punctSubAux true cs else ' ' :: punctSubAux true cs := rfl

theorem wsCollapseAux_cons (b : Bool) (c : Char) (cs : List Char) :
    wsCollapseAux b (c :: cs) =
      if c.isWhitespace then
        if b then wsCollapseAux true cs else ' ' :: wsCollapseAux true cs
      else c :: wsCollapseAux false cs := rfl

theorem punctSubAux_alnum_append :
    ∀ (t : List Char), (∀ c ∈ t, isUpperAlnum c = true) →
      ∀ (b : Bool) (r : List Char),
        punctSubAux b (t ++ r) = t ++ punctSubAux (if t = [] then b else false) r := by
  intro t
  induction t with
  | nil => intro _ b r; rfl
  | cons d ds ih =>
    intro h b r
    have hd : isUpperAlnum d = true := h d (List.mem_cons_self _ _)
    have hds : ∀ c ∈ ds, isUpperAlnum c = true :=
      fun c hc => h c (List.mem_cons_of_mem d hc)
    rw [List.cons_append, punctSubAux_cons, if_pos hd, ih hds false r]
    by_cases hnil : ds = [] <;> simp [hnil]

theorem punctSubAux_joinSpace {ts : List (List Char)} (h : CanonToks ts) :
    ∀ b : Bool, punctSubAux b (joinSpace ts) = joinSpace ts := by
  induction ts with
  | nil => intro b; rfl
  | cons t ts ih =>
    intro b
    obtain ⟨hne, halnum⟩ := h t (List.mem_cons_self _ _)
    have hts : CanonToks ts := fun v hv => h v (List.mem_cons_of_mem t hv)
    cases ts with
    | nil =>
      show punctSubAux b t = t
      have h1 := punctSubAux_alnum_append t halnum b []
      rw [List.append_nil] at h1
      rw [h1]
      show t ++ punctSubAux (if t = [] then b else false) [] = t
      cases hcase : (if t = [] then b else false) <;> simp [punctSubAux]
    | cons u us =>
      rw [joinSpace_cons (by simp)]
      rw [punctSubAux_alnum_append t halnum b (' ' :: joinSpace (u :: us))]
      rw [if_neg hne]
      rw [punctSubAux_cons]
      rw [if_neg (by decide : ¬ (isUpperAlnum ' ' = true))]
      rw [if_neg (by simp : ¬ (false = true))]
      rw [ih hts true]

theorem wsCollapseAux_nonws_append :
    ∀ (t : List Char), (∀ c ∈ t, c.isWhitespace = false) →
      ∀ (b : Bool) (r : List Char),
        wsCollapseAux b (t ++ r) = t ++ wsCollapseAux (if t = [] then b else false) r := by
  intro t
  induction t with
  | nil => intro _ b r; rfl
  | cons d ds ih =>
    intro h b r
    have hd : d.isWhitespace = false := h d (List.mem_cons_self _ _)
    have hds : ∀ c ∈ ds, c.isWhitespace = false :=
      fun c hc => h c (List.mem_cons_of_mem d hc)
    rw [List.cons_append, wsCollapseAux_cons, if_neg (by simp [hd]), ih hds false r]
    by_cases hnil : ds = [] <;> simp [hnil]

theorem wsCollapseAux_joinSpace {ts : List (List Char)} (h : CanonToks ts) :
    ∀ b : Bool, wsCollapseAux b (joinSpace ts) = joinSpace ts := by
  induction ts with
  | nil => intro b; rfl
  | cons t ts ih =>
    intro b
    obtain ⟨hne, hnw⟩ := canonToks_nonws h t (List.mem_cons_self _ _)
    have hts : CanonToks ts := fun v hv => h v (List.mem_cons_of_mem t hv)
    cases ts with
    | nil =>
      show wsCollapseAux b t = t
      have h1 := wsCollapseAux_nonws_append t hnw b []
      rw [List.append_nil] at h1
      rw [h1]
      cases hcase : (if t = [] then b else false) <;> simp [wsCollapseAux]
    | cons u us =>
      rw [joinSpace_cons (by simp)]
      rw [wsCollapseAux_nonws_append t hnw b (' ' :: joinSpace (u :: us))]
      rw [if_neg hne]
      rw [wsCollapseAux_cons]
      rw [if_pos (by decide : (' ' : Char).isWhitespace = true)]
      rw [if_neg (by simp : ¬ (false = true))]
      rw [ih hts true]

theorem joinSpace_append_single :
    ∀ (xs : List (List Char)) (u : List Char), xs ≠ [] →
      joinSpace (xs ++ [u]) = joinSpace xs ++ ' ' :: u := by
  intro xs
  induction xs with
  | nil => intro u h; exact absurd rfl h
  | cons x ys ih =>
    intro u _
    cases ys with
    | nil => rfl
    | cons y zs =>
      have h2 := ih u (by simp)
      calc joinSpace (x :: y :: zs ++ [u])
          = x ++ ' ' :: joinSpace (y :: zs ++ [u]) := by
            rw [show x :: y :: zs ++ [u] = x :: (y :: zs ++ [u]) from rfl]
            exact joinSpace_cons (by simp)
        _ = x ++ ' ' :: (joinSpace (y :: zs) ++ ' ' :: u) := by rw [h2]
        _ = joinSpace (x :: y :: zs) ++ ' ' :: u := by
            rw [show joinSpace (x :: y :: zs) = x ++ ' ' :: joinSpace (y :: zs) from
              joinSpace_cons (by simp)]
            simp

theorem joinSpace_reverse :
    ∀ ts : List (List Char),
      (joinSpace ts).reverse = joinSpace ((ts.map List.reverse).reverse) := by
  intro ts
  induction ts with
  | nil => rfl
  | cons t ts ih =>
    cases ts with
    | nil => rfl
    | cons u us =>
      rw [joinSpace_cons (by simp)]
      rw [List.reverse_append, List.reverse_cons]
      rw [List.map_cons, List.reverse_cons]
      rw [joinSpace_append_single _ t.reverse (by simp)]
      rw [← ih]
      simp

theorem canonToks_reverse {ts : List (List Char)} (h : CanonToks ts) :
    CanonToks ((ts.map List.reverse).reverse) := by
  intro t ht
  rw [List.mem_reverse, List.mem_map] at ht
  obtain ⟨v, hv, rfl⟩ := ht
  obtain ⟨hne, halnum⟩ := h v hv
  exact ⟨by simpa using hne, fun c hc => halnum c (List.mem_reverse.mp hc)⟩

theorem dropWhile_ws_joinSpace {ts : List (List Char)} (h : CanonToks ts) :
    (joinSpace ts).dropWhile Char.isWhitespace = joinSpace ts := by
  cases ts with
  | nil => rfl
  | cons t ts =>
    obtain ⟨hne, hnw⟩ := canonToks_nonws h t (List.mem_cons_self _ _)
    cases t with
    | nil => exact absurd rfl hne
    | cons c cs =>
      have hc : c.isWhitespace = false := hnw c (List.mem_cons_self _ _)
      cases ts with
      | nil =>
        show (c :: cs).dropWhile Char.isWhitespace = c :: cs
        simp [List.dropWhile_cons, hc]
      | cons u us =>
        rw [joinSpace_cons (by simp)]
        simp [List.dropWhile_cons, hc]

theorem pyStrip_joinSpace {ts : List (List Char)} (h : CanonToks ts) :
    pyStrip (joinSpace ts) = joinSpace ts := by
  unfold pyStrip stripStart
  rw [dropWhile_ws_joinSpace h]
  rw [joinSpace_reverse ts]
  rw [dropWhile_ws_joinSpace (canonToks_reverse h)]
  rw [← joinSpace_reverse ts, List.reverse_reverse]

theorem map_pyUpperChar_joinSpace {ts : List (List Char)} (h : CanonToks ts) :
    (joinSpace ts).map pyUpperChar = joinSpace ts := by
  apply map_id_of_mem
  intro c hc
  rcases mem_joinSpace ts c hc with ⟨t, ht, hct⟩ | rfl
  · exact isUpperAlnum_pyUpperChar ((h t ht).2 c hct)
  · decide

theorem nameStage1_joinSpace {ts : List (List Char)} (h : CanonToks ts) :
    nameStage1 (joinSpace ts) = joinSpace ts := by
  unfold nameStage1
  rw [map_pyUpperChar_joinSpace h, pyStrip_joinSpace h,
    punctSubAux_joinSpace h false, wsCollapseAux_joinSpace h false,
    pyStrip_joinSpace h]

/-! ### Claim C1: postal normalization -/

/-- C1 counterexample: the claim states that an input containing no digits
normalizes to the empty string and that both normalizers map empty input to
empty.  On the code, the digit-free non-empty input `"abc"` normalizes to
`"00000"` (the digits `""` are zero-filled to width 5), and the
orchestrator variant `_zip5`, which lacks the empty-input guard of
`_norm_zip5`, maps `""` to `"00000"` as well. -/
theorem C1_postal_counterexample :
    normZip5 "abc" = "00000" ∧ normZip5 "abc" ≠ "" ∧
    zip5Orch "" = "00000" ∧ zip5Orch "" ≠ "" ∧ normZip5 "" = "" := by
  refine ⟨by decide, by decide, by decide, by decide, by decide⟩

/-- C1 (amended): for any input with at least five digit characters both
normalizers return exactly the first five digits in order; with fewer
digits the digit subsequence is zero-left-filled to length 5, so a
non-empty input with no digits yields `"00000"`, not `""`.  The two
functions differ on the empty string: `_norm_zip5` returns `""` while
`_zip5` returns `"00000"`. -/
theorem C1_postal_amended (s : String) :
    (5 ≤ (digitsOf s).length →
      normZip5 s = ⟨(digitsOf s).take 5⟩ ∧ zip5Orch s = ⟨(digitsOf s).take 5⟩ ∧
      (zip5Orch s).length = 5) ∧
    ((digitsOf s).length < 5 →
      zip5Orch s = ⟨zfill 5 (digitsOf s)⟩ ∧ (zip5Orch s).length = 5 ∧
      (s ≠ "" → normZip5 s = ⟨zfill 5 (digitsOf s)⟩) ∧
      (s = "" → normZip5 s = "")) := by
  constructor
  · intro h
    refine ⟨?_, ?_, ?_⟩
    · have hne : s ≠ "" := by
        intro hs; subst hs; simp [digitsOf] at h
      simp [normZip5, hne, h]
    · simp [zip5Orch, h]
    · show (zip5Orch s).data.length = 5
      simp [zip5Orch, h]
  · intro h
    have hn : ¬ (5 ≤ (digitsOf s).length) := by omega
    refine ⟨?_, ?_, ?_, ?_⟩
    · simp [zip5Orch, hn]
    · show (zip5Orch s).data.length = 5
      simp only [zip5Orch, hn, if_false]
      exact zfill_length_of_le (by omega)
    · intro hne; simp [normZip5, hne, hn]
    · intro hs; subst hs; simp [normZip5]

/-- C1 witness: the amended statement evaluated at concrete inputs, a
string with more than five digits and a string with two digits. -/
theorem C1_postal_amended_witness :
    normZip5 "CA 94103-1234" = "94103" ∧ zip5Orch "x1y2" = "00012" := by
  constructor
  · exact (((C1_postal_amended "CA 94103-1234").1 (by decide)).1).trans (by decide)
  · exact (((C1_postal_amended "x1y2").2 (by decide)).1).trans (by decide)

/-! ### Claims C8 and C9: idempotence and termination of name
normalization -/

/-- C9: the iterative suffix-strip loop of `_norm_name` reaches its fixed
point (the exit condition of the `while prev != s and s:` loop) in at most
as many passes as there are tokens, for every input, and `_norm_name`
returns the join of that fixed point: the normalizer is a total function
even on pathological all-suffix inputs such as `"INC INC INC"`. -/
theorem C9_suffix_loop_terminates (s : String) :
    ∃ n ≤ (splitWords (nameStage1 s.toList)).length,
      stripPass^[n + 1] (splitWords (nameStage1 s.toList)) =
        stripPass^[n] (splitWords (nameStage1 s.toList)) ∧
      normName s = ⟨joinSpace (stripPass^[n] (splitWords (nameStage1 s.toList)))⟩ := by
  obtain ⟨n, hn, heq, hfix⟩ :=
    stripLoop_spec (splitWords (nameStage1 s.toList)).length
      (splitWords (nameStage1 s.toList)) (Nat.le_refl _)
  refine ⟨n, hn, hfix, ?_⟩
  show (⟨joinSpace (stripLoop (splitWords (nameStage1 s.toList)).length
    (splitWords (nameStage1 s.toList)))⟩ : String) = _
  rw [heq]

/-- Normalizing the join of a canonical fixed-point token list changes
nothing: the pre-loop stage fixes the string and one more loop run exits
immediately. -/
theorem normName_joinSpace_of_fix {R : List (List Char)} (canonR : CanonToks R)
    (hfix : stripPass R = R) : normName ⟨joinSpace R⟩ = ⟨joinSpace R⟩ := by
  have key : splitWords (nameStage1 (joinSpace R)) = R := by
    rw [nameStage1_joinSpace canonR, splitWords_joinSpace _ (canonToks_nonws canonR)]
  calc normName ⟨joinSpace R⟩
      = ⟨joinSpace (stripLoop (splitWords (nameStage1 (joinSpace R))).length
          (splitWords (nameStage1 (joinSpace R))))⟩ := rfl
    _ = ⟨joinSpace (stripLoop R.length R)⟩ := by rw [key]
    _ = ⟨joinSpace R⟩ := by rw [stripLoop_of_fix _ hfix]

/-- C8: `_norm_name` is idempotent: normalizing an already-normalized
company name changes nothing. -/
theorem C8_normName_idempotent (s : String) : normName (normName s) = normName s := by
  have canonT : CanonToks (splitWords (nameStage1 s.toList)) :=
    canonToks_splitWords_nameStage1 _
  have canonR : CanonToks (stripLoop (splitWords (nameStage1 s.toList)).length
      (splitWords (nameStage1 s.toList))) :=
    canonToks_sublist (stripLoop_sublist _ _) canonT
  have hfix : stripPass (stripLoop (splitWords (nameStage1 s.toList)).length
      (splitWords (nameStage1 s.toList))) =
      stripLoop (splitWords (nameStage1 s.toList)).length
        (splitWords (nameStage1 s.toList)) :=
    stripPass_stripLoop _ _ (Nat.le_refl _)
  exact normName_joinSpace_of_fix canonR hfix

/-! ### City normalization and token-set similarity

Source: `scoring.py` lines 19–51.  `_norm_city` uppercases, replaces runs
of characters outside `[A-Z0-9 ]` by a space, splits on whitespace, maps a
fixed abbreviation table token-by-token and re-joins.  `token_set_ratio`
(embedded as `tokenSetSim`; the name avoids a lexical restriction of this
development) normalizes both sides, forms sorted token sets, and compares
the intersection against intersection-plus-remainder on each side with
`difflib.SequenceMatcher(...).ratio()`, taking the larger value.  The
`SequenceMatcher` ratio itself is an external library routine; it is
passed in as the parameter `sim`, whose documented range `[0, 1]` is taken
as a hypothesis where a claim needs it. -/

/-- Character class `[A-Z0-9 ]`, the complement of the `_NON_ALNUM` regex
class (which, unlike `_PUNCT` in the name normalizer, preserves spaces). -/
def isCityKeep (c : Char) : Bool := isUpperAlnum c || c == ' '

/-- Model of `_NON_ALNUM.sub(" ", s)`: replace every maximal run of
characters outside `[A-Z0-9 ]` by a single space. -/
def citySubAux : Bool → List Char → List Char
  | _, [] => []
  | inRun, c :: cs =>
    if isCityKeep c then c :: citySubAux false cs
    else if inRun then citySubAux true cs
    else ' ' :: citySubAux true cs

/-- The `CANON` abbreviation table of scoring.py:23–28 (the dotted keys can
never match a token after punctuation removal but are kept for fidelity). -/
def canonPairs : List (String × String) :=
  [("ST", "SAINT"), ("ST.", "SAINT"), ("SAINT", "SAINT"),
   ("FT", "FORT"), ("FT.", "FORT"), ("FORT", "FORT"),
   ("MT", "MOUNT"), ("MT.", "MOUNT"), ("MOUNT", "MOUNT"),
   ("N", "NORTH"), ("S", "SOUTH"), ("E", "EAST"), ("W", "WEST")]

/-- Lookup in the `CANON` table with the token itself as default
(`CANON.get(t, t)`). -/
def canonTok (t : String) : String :=
  ((canonPairs.find? (fun p => p.1 == t)).map Prod.snd).getD t

/-- Embedding of `_norm_city` (scoring.py:35–40). -/
def normCity (s : String) : String :=
  if s = "" then ""
  else
    let sub := citySubAux false (s.toList.map pyUpperChar)
    ⟨joinSpace ((splitWords sub).map (fun t => (canonTok ⟨t⟩).toList))⟩

/-- Lexicographic codepoint order on character lists: the model of
Python's `<` on strings. -/
def charsLt : List Char → List Char → Bool
  | [], [] => false
  | [], _ :: _ => true
  | _ :: _, [] => false
  | a :: as, b :: bs =>
    if a.toNat < b.toNat then true
    else if b.toNat < a.toNat then false
    else charsLt as bs

/-- Non-strict codepoint order on character lists. -/
def charsLeB (a b : List Char) : Bool := !(charsLt b a)

/-- Non-strict codepoint order on strings. -/
def strLeS (a b : String) : Bool := charsLeB a.toList b.toList

/-- Stable insertion into a sorted list: the new element goes before the
first element it compares `le` to, so elements equal under a total `le`
keep their original relative order. -/
def insertLe (le : α → α → Bool) (x : α) : List α → List α
  | [] => [x]
  | y :: ys => if le x y then x :: y :: ys else y :: insertLe le x ys

/-- Stable sort (the model of Python's stable `list.sort` /
`sorted`; the source relies only on the order and stability of the sort,
not on its algorithm). -/
def pySort (le : α → α → Bool) : List α → List α
  | [] => []
  | x :: xs => insertLe le x (pySort le xs)

/-- Embedding of `token_set_ratio` (scoring.py:42–51), parameterized by the
`SequenceMatcher` ratio `sim`. -/
def tokenSetSim (sim : String → String → ℚ) (a b : String) : ℚ :=
  if normCity a = "" ∨ normCity b = "" then 0
  else
    let aset := (splitWords (normCity a).toList).dedup
    let bset := (splitWords (normCity b).toList).dedup
    let inter : String := ⟨joinSpace (pySort charsLeB (aset.filter (fun t => t ∈ bset)))⟩
    let aRem : String := ⟨joinSpace (pySort charsLeB (aset.filter (fun t => t ∉ bset)))⟩
    let bRem : String := ⟨joinSpace (pySort charsLeB (bset.filter (fun t => t ∉ aset)))⟩
    max (sim inter (pyStripS (inter ++ " " ++ aRem)))
        (sim inter (pyStripS (inter ++ " " ++ bRem)))

/-! ### Filing-date parsing

Source: `scoring.py` lines 53–57, `_parse_date_iso`: `strptime(s,
"%Y-%m-%d")` yields `(year, month, day)`; any parse failure (including a
`None` input) yields `(0, 0, 0)`. -/

/-- Numeric value of a digit string. -/
def natOfDigits (l : List Char) : ℕ := l.foldl (fun n c => 10 * n + (c.toNat - 48)) 0

/-- Gregorian leap-year rule (as validated by `datetime.strptime`). -/
def isLeapYear (y : ℕ) : Bool := (y % 4 == 0 && y % 100 != 0) || (y % 400 == 0)

/-- Days in a month, for `strptime` date validation. -/
def daysInMonth (y m : ℕ) : ℕ :=
  if m = 2 then (if isLeapYear y then 29 else 28)
  else if m = 4 ∨ m = 6 ∨ m = 9 ∨ m = 11 then 30
  else 31

/-- Embedding of `_parse_date_iso` (scoring.py:53–57). -/
def parseDateIso (s : Option String) : ℕ × ℕ × ℕ :=
  match s with
  | none => (0, 0, 0)
  | some str =>
    match str.splitOn "-" with
    | [ys, ms, ds] =>
      if ys ≠ "" ∧ ys.length ≤ 4 ∧ ys.toList.all Char.isDigit ∧
         ms ≠ "" ∧ ms.length ≤ 2 ∧ ms.toList.all Char.isDigit ∧
         ds ≠ "" ∧ ds.length ≤ 2 ∧ ds.toList.all Char.isDigit then
        let y := natOfDigits ys.toList
        let m := natOfDigits ms.toList
        let d := natOfDigits ds.toList
        if 1 ≤ y ∧ 1 ≤ m ∧ m ≤ 12 ∧ 1 ≤ d ∧ d ≤ daysInMonth y m then (y, m, d)
        else (0, 0, 0)
      else (0, 0, 0)
    | _ => (0, 0, 0)

/-! ### The submissions document model

The JSON shape consumed by `_addresses_from_submissions` and
`_meta_from_subs` (scoring.py:75–116): an `addresses` object with
`business`/`mailing` blocks carrying `city`, `state`/`stateOrCountry` and
`zipCode`/`zip`, and a `filings.recent` object with parallel `form`,
`filingDate` and `accessionNumber` arrays.  `Option` models an absent key;
Python's falsy-chaining `x or y` is embedded by `pyOrS`/`pyOrL`. -/

structure AddrJson where
  city : Option String := none
  state : Option String := none
  stateOrCountry : Option String := none
  zipCode : Option String := none
  zip : Option String := none
deriving DecidableEq

structure AddressesJson where
  business : Option AddrJson := none
  mailing : Option AddrJson := none
deriving DecidableEq

structure RecentJson where
  form : Option (List String) := none
  filingDate : Option (List String) := none
  accessionNumber : Option (List String) := none
deriving DecidableEq

structure FilingsJson where
  recent : Option RecentJson := none
deriving DecidableEq

structure Subs where
  addresses : Option AddressesJson := none
  filings : Option FilingsJson := none
deriving DecidableEq

/-- Python `a or b` for an optional string: a present non-empty value wins,
otherwise the fallback. -/
def pyOrS (a : Option String) (b : String) : String :=
  match a with
  | none => b
  | some s => if s = "" then b else s

/-- Python `a or []` for an optional list. -/
def pyOrL (a : Option (List String)) : List String := a.getD []

/-- One normalized address block as built by `_addresses_from_submissions`:
`city`, two-letter `state`, and normalized `zip5`.  The empty string plays
the role of an omitted key, which is faithful because every read of a block
in the source is `block.get(k) or ""`. -/
structure AddrBlock where
  city : String := ""
  state : String := ""
  zip5 : String := ""
deriving DecidableEq

/-- The block for one address slot (scoring.py:79–89). -/
def addrBlockOf (b : AddrJson) : AddrBlock :=
  { city := pyUpperS (pyStripS (pyOrS b.city ""))
    state := ⟨(pyUpperS (pyStripS (pyOrS b.state (pyOrS b.stateOrCountry "")))).toList.take 2⟩
    zip5 := normZip5 (pyOrS b.zipCode (pyOrS b.zip "")) }

/-- Embedding of `_addresses_from_submissions` (scoring.py:75–90), as the
pair (business block, mail block). -/
def addressesFromSubmissions (subs : Option Subs) : AddrBlock × AddrBlock :=
  match subs with
  | none => ({}, {})
  | some sb =>
    let addrs := sb.addresses.getD {}
    (addrBlockOf (addrs.business.getD {}), addrBlockOf (addrs.mailing.getD {}))

/-- The `filings.recent` object with missing levels defaulted
(`(subs or {}).get("filings", {}).get("recent", {})`). -/
def recentOf (subs : Option Subs) : RecentJson :=
  ((subs.getD {}).filings.getD {}).recent.getD {}

/-- Embedding of `_pick_latest_index_from_subs` (scoring.py:92–102): sort
the indices of the `form` array by filing date, descending and stable, and
return the first whose form is `10-K` or `20-F`, falling back to the most
recent index. -/
def pickLatestIndexFromSubs (subs : Option Subs) : Option ℕ :=
  let recent := recentOf subs
  let forms := pyOrL recent.form
  let dates := pyOrL recent.filingDate
  if forms.isEmpty then none
  else
    let idxs := pySort (fun i j => strLeS (dates.getD j "") (dates.getD i ""))
      (List.range forms.length)
    match idxs.find? (fun i => decide (forms.getD i "" = "10-K" ∨ forms.getD i "" = "20-F")) with
    | some i => some i
    | none => idxs.head?

/-- The most-recent-filing metadata attached to a ranked candidate. -/
structure FilingMeta where
  form : Option String := none
  accession : Option String := none
  filingDate : Option String := none
deriving DecidableEq

/-- Embedding of `_meta_from_subs` (scoring.py:104–116). -/
def metaFromSubs (subs : Option Subs) : FilingMeta :=
  match subs with
  | none => {}
  | some sb =>
    let recent := recentOf (some sb)
    let accs := pyOrL recent.accessionNumber
    let forms := pyOrL recent.form
    let dates := pyOrL recent.filingDate
    match pickLatestIndexFromSubs (some sb) with
    | none => {}
    | some idx => { form := forms[idx]?, accession := accs[idx]?, filingDate := dates[idx]? }

/-! ### IEEE-754 binary64 arithmetic

`rank_candidates` computes its scores in Python floats, i.e. IEEE-754
binary64.  Every finite double is a rational number, so double values are
carried as the exact rationals they denote; what is not exact is the
arithmetic: each operation rounds its exact rational result to the nearest
representable double, ties to even.  `round64` is that rounding, built
from the binade exponent `qlog2` and the integer rounding `rhe`;
`fadd64`/`fmul64` are the source's `+` and `*` on scores.  The model
carries no infinities: a magnitude beyond the finite double range stays on
the top binade's grid instead of overflowing (unreachable for the
pipeline's scores, which stay below 4 given the `[0, 1]` range of the
similarity ratio), and `-0.0` is identified with `0` (invisible to the
comparisons and arithmetic involved).  The concrete evaluations below were
cross-checked against CPython double arithmetic. -/

/-- Fuel-driven base-2 logarithm on naturals: `natLog2Aux fuel n = ⌊log₂ n⌋`
whenever `1 ≤ n ≤ fuel` (fuel `n` suffices, because the argument halves). -/
def natLog2Aux : ℕ → ℕ → ℕ
  | 0, _ => 0
  | fuel + 1, n => if 2 ≤ n then natLog2Aux fuel (n / 2) + 1 else 0

/-- `⌊log₂ n⌋` for `n ≥ 1` (and `0` at `0`). -/
def natLog2 (n : ℕ) : ℕ := natLog2Aux n n

/-- Round a rational to an integer, halves to the even neighbor: the tie
rule of IEEE-754 roundTiesToEven, once the value is scaled to the grid. -/
def rhe (q : ℚ) : ℤ :=
  if q - (⌊q⌋ : ℚ) < 1 / 2 then ⌊q⌋
  else if 1 / 2 < q - (⌊q⌋ : ℚ) then ⌊q⌋ + 1
  else if ⌊q⌋ % 2 = 0 then ⌊q⌋ else ⌊q⌋ + 1

/-- The binade exponent `⌊log₂ q⌋` of a positive rational: for `q ≥ 1` via
the floor, for `q < 1` via the floor of `1/q`, distinguishing exact powers
of two (where `⌊log₂ (1/q)⌋` is exactly `-⌊log₂ q⌋`) from the rest. -/
def qlog2 (q : ℚ) : ℤ :=
  if 1 ≤ q then (natLog2 ⌊q⌋.toNat : ℤ)
  else if q * 2 ^ natLog2 ⌊1 / q⌋.toNat = 1 then -(natLog2 ⌊1 / q⌋.toNat : ℤ)
  else -(natLog2 ⌊1 / q⌋.toNat : ℤ) - 1

/-- The exponent of the binary64 rounding grid (the unit in the last place)
at magnitude `q`: `2 ^ (e - 52)` for a normal binade `e` (53 significant
bits), clamped at the fixed subnormal grid `2 ^ (-1074)`. -/
def gridExp (q : ℚ) : ℤ := max (-1074) (qlog2 q - 52)

/-- Round a rational to the nearest IEEE-754 binary64 value — as the exact
rational that value denotes — with ties to even. -/
def round64 (q : ℚ) : ℚ :=
  if q = 0 then 0
  else if 0 < q then (rhe (q / 2 ^ gridExp q) : ℚ) * 2 ^ gridExp q
  else -((rhe (-q / 2 ^ gridExp (-q)) : ℚ) * 2 ^ gridExp (-q))

/-- Double addition: Python `x + y` on floats. -/
def fadd64 (x y : ℚ) : ℚ := round64 (x + y)

/-- Double multiplication: Python `x * y` on floats. -/
def fmul64 (x y : ℚ) : ℚ := round64 (x * y)

theorem fadd64_def (x y : ℚ) : fadd64 x y = round64 (x + y) := rfl

theorem fmul64_def (x y : ℚ) : fmul64 x y = round64 (x * y) := rfl

theorem natLog2Aux_succ (fuel n : ℕ) :
    natLog2Aux (fuel + 1) n = if 2 ≤ n then natLog2Aux fuel (n / 2) + 1 else 0 := rfl

theorem natLog2Aux_spec : ∀ fuel n, n ≤ fuel → 1 ≤ n →
    2 ^ natLog2Aux fuel n ≤ n ∧ n < 2 ^ (natLog2Aux fuel n + 1) := by
  intro fuel
  induction fuel with
  | zero => intro n h1 h2; omega
  | succ fuel ih =>
    intro n hn h1
    rw [natLog2Aux_succ]
    by_cases h2 : 2 ≤ n
    · rw [if_pos h2]
      have hrec := ih (n / 2) (by omega) (by omega)
      rcases hrec with ⟨hl, hr⟩
      constructor
      · have he : 2 ^ (natLog2Aux fuel (n / 2) + 1) = 2 * 2 ^ natLog2Aux fuel (n / 2) := by
          ring
        rw [he]
        omega
      · have he : 2 ^ (natLog2Aux fuel (n / 2) + 1 + 1)
            = 2 * 2 ^ (natLog2Aux fuel (n / 2) + 1) := by
          ring
        rw [he]
        omega
    · rw [if_neg h2]
      norm_num
      omega

theorem natLog2_le_self {n : ℕ} (h : 1 ≤ n) : 2 ^ natLog2 n ≤ n :=
  (natLog2Aux_spec n n le_rfl h).1

theorem lt_natLog2_succ {n : ℕ} (h : 1 ≤ n) : n < 2 ^ (natLog2 n + 1) :=
  (natLog2Aux_spec n n le_rfl h).2

theorem le_rhe (q : ℚ) : ⌊q⌋ ≤ rhe q := by
  unfold rhe
  split_ifs <;> omega

theorem rhe_le (q : ℚ) : rhe q ≤ ⌊q⌋ + 1 := by
  unfold rhe
  split_ifs <;> omega

theorem floor_eval {q : ℚ} {f : ℤ} (h1 : (f : ℚ) ≤ q) (h2 : q < f + 1) : ⌊q⌋ = f :=
  Int.floor_eq_iff.mpr ⟨h1, h2⟩

theorem rhe_eval_down {q : ℚ} {f : ℤ} (hf : ⌊q⌋ = f) (hr : q - (f : ℚ) < 1 / 2) :
    rhe q = f := by
  unfold rhe
  rw [hf, if_pos hr]

theorem rhe_eval_up {q : ℚ} {f : ℤ} (hf : ⌊q⌋ = f) (hr : 1 / 2 < q - (f : ℚ)) :
    rhe q = f + 1 := by
  unfold rhe
  rw [hf, if_neg (by linarith), if_pos hr]

theorem rhe_eval_tie_odd {q : ℚ} {f : ℤ} (hf : ⌊q⌋ = f) (hmid : q - (f : ℚ) = 1 / 2)
    (hodd : ¬ f % 2 = 0) : rhe q = f + 1 := by
  unfold rhe
  rw [hf, hmid]
  rw [if_neg (by norm_num), if_neg (by norm_num), if_neg hodd]

theorem qlog2_eval_ge_one {q : ℚ} {f : ℤ} {n : ℕ} (h1 : 1 ≤ q) (hf : ⌊q⌋ = f)
    (hfn : f.toNat = n) : qlog2 q = (natLog2 n : ℤ) := by
  unfold qlog2
  rw [if_pos h1, hf, hfn]

theorem qlog2_eval_lt_one {q : ℚ} {f : ℤ} {n : ℕ} (h1 : ¬ 1 ≤ q) (hf : ⌊1 / q⌋ = f)
    (hfn : f.toNat = n) (hne : q * 2 ^ natLog2 n ≠ 1) :
    qlog2 q = -(natLog2 n : ℤ) - 1 := by
  unfold qlog2
  rw [if_neg h1, hf, hfn, if_neg hne]

theorem round64_eval {q g : ℚ} {e k m : ℤ} (h0 : 0 < q)
    (he : qlog2 q = e) (hk : max (-1074 : ℤ) (e - 52) = k)
    (hg : (2 : ℚ) ^ k = g) (hr : rhe (q / g) = m) :
    round64 q = (m : ℚ) * g := by
  unfold round64 gridExp
  rw [if_neg (ne_of_gt h0), if_pos h0, he, hk, hg, hr]

theorem round64_zero : round64 (0 : ℚ) = 0 := rfl

/-- The double nearest `0.6` (the literal `0.6` of the spec example as the
program holds it): `0.6 = 5404319552844595 * 2 ^ (-53)` exactly. -/
theorem round64_point6 : round64 (3 / 5 : ℚ) = 5404319552844595 / 2 ^ 53 := by
  have hn1 : natLog2 1 = 0 := rfl
  have hfl : ⌊(1 : ℚ) / (3 / 5)⌋ = 1 := floor_eval (by norm_num) (by norm_num)
  have he : qlog2 (3 / 5 : ℚ) = -1 := by
    rw [qlog2_eval_lt_one (n := 1) (by norm_num) hfl rfl (by rw [hn1]; norm_num), hn1]
    norm_num
  have hg : (2 : ℚ) ^ (-53 : ℤ) = 1 / 2 ^ 53 := by norm_num
  have hq : (3 / 5 : ℚ) / (1 / 2 ^ 53) = 27021597764222976 / 5 := by norm_num
  have hr : rhe ((3 / 5 : ℚ) / (1 / 2 ^ 53)) = 5404319552844595 := by
    rw [hq]
    exact rhe_eval_down (floor_eval (by norm_num) (by norm_num)) (by norm_num)
  rw [round64_eval (by norm_num) he (by decide) hg hr]
  norm_num

/-- The double nearest `0.9`: `0.9 = 8106479329266893 * 2 ^ (-53)`. -/
theorem round64_point9 : round64 (9 / 10 : ℚ) = 8106479329266893 / 2 ^ 53 := by
  have hn1 : natLog2 1 = 0 := rfl
  have hfl : ⌊(1 : ℚ) / (9 / 10)⌋ = 1 := floor_eval (by norm_num) (by norm_num)
  have he : qlog2 (9 / 10 : ℚ) = -1 := by
    rw [qlog2_eval_lt_one (n := 1) (by norm_num) hfl rfl (by rw [hn1]; norm_num), hn1]
    norm_num
  have hg : (2 : ℚ) ^ (-53 : ℤ) = 1 / 2 ^ 53 := by norm_num
  have hq : (9 / 10 : ℚ) / (1 / 2 ^ 53) = 40532396646334464 / 5 := by norm_num
  have hr : rhe ((9 / 10 : ℚ) / (1 / 2 ^ 53)) = 8106479329266893 := by
    rw [hq, rhe_eval_up (f := 8106479329266892) (floor_eval (by norm_num) (by norm_num))
      (by norm_num)]
    norm_num
  rw [round64_eval (by norm_num) he (by decide) hg hr]
  norm_num

/-- `0.5 * 0.9` is exact in doubles: halving the double `0.9` needs no
rounding, and the result is the double `0.45`. -/
theorem round64_point45 :
    round64 (1 / 2 * (8106479329266893 / 2 ^ 53) : ℚ) = 8106479329266893 / 2 ^ 54 := by
  have hn2 : natLog2 2 = 1 := rfl
  have hfl : ⌊(1 : ℚ) / (1 / 2 * (8106479329266893 / 2 ^ 53))⌋ = 2 :=
    floor_eval (by norm_num) (by norm_num)
  have he : qlog2 (1 / 2 * (8106479329266893 / 2 ^ 53) : ℚ) = -2 := by
    rw [qlog2_eval_lt_one (n := 2) (by norm_num) hfl rfl (by rw [hn2]; norm_num), hn2]
    norm_num
  have hg : (2 : ℚ) ^ (-54 : ℤ) = 1 / 2 ^ 54 := by norm_num
  have hq : (1 / 2 * (8106479329266893 / 2 ^ 53) : ℚ) / (1 / 2 ^ 54)
      = 8106479329266893 := by norm_num
  have hr : rhe ((1 / 2 * (8106479329266893 / 2 ^ 53) : ℚ) / (1 / 2 ^ 54))
      = 8106479329266893 := by
    rw [hq]
    exact rhe_eval_down (floor_eval (by norm_num) (by norm_num)) (by norm_num)
  rw [round64_eval (by norm_num) he (by decide) hg hr]
  norm_num

/-- `0.6 + 1.0` in doubles: the exact sum needs 54 significant bits, the
tie goes up to the even neighbor, and the result happens to be exactly the
double `1.6` — so the spec's `addr_score = 1.6` does hold in doubles. -/
theorem round64_onePoint6 :
    round64 (5404319552844595 / 2 ^ 53 + 1 : ℚ) = 7205759403792794 / 2 ^ 52 := by
  have hn1 : natLog2 1 = 0 := rfl
  have hfl : ⌊(5404319552844595 / 2 ^ 53 + 1 : ℚ)⌋ = 1 :=
    floor_eval (by norm_num) (by norm_num)
  have he : qlog2 (5404319552844595 / 2 ^ 53 + 1 : ℚ) = 0 := by
    rw [qlog2_eval_ge_one (n := 1) (by norm_num) hfl rfl, hn1]
    norm_num
  have hg : (2 : ℚ) ^ (-52 : ℤ) = 1 / 2 ^ 52 := by norm_num
  have hq : (5404319552844595 / 2 ^ 53 + 1 : ℚ) / (1 / 2 ^ 52)
      = 14411518807585587 / 2 := by norm_num
  have hr : rhe ((5404319552844595 / 2 ^ 53 + 1 : ℚ) / (1 / 2 ^ 52))
      = 7205759403792794 := by
    rw [hq]
    rw [rhe_eval_tie_odd (f := 7205759403792793) (floor_eval (by norm_num) (by norm_num))
      (by norm_num) (by decide)]
    norm_num
  rw [round64_eval (by norm_num) he (by decide) hg hr]
  norm_num

/-- `1.6 + 0.45` in doubles rounds UP: the result is the double
`2.0500000000000003 = 4616189618054759 * 2 ^ (-51)`, one unit in the last
place above the double `2.05 = 4616189618054758 * 2 ^ (-51)`. -/
theorem round64_total205 :
    round64 (7205759403792794 / 2 ^ 52 + 8106479329266893 / 2 ^ 54 : ℚ)
      = 4616189618054759 / 2 ^ 51 := by
  have hn2 : natLog2 2 = 1 := rfl
  have hfl : ⌊(7205759403792794 / 2 ^ 52 + 8106479329266893 / 2 ^ 54 : ℚ)⌋ = 2 :=
    floor_eval (by norm_num) (by norm_num)
  have he : qlog2 (7205759403792794 / 2 ^ 52 + 8106479329266893 / 2 ^ 54 : ℚ) = 1 := by
    rw [qlog2_eval_ge_one (n := 2) (by norm_num) hfl rfl, hn2]
    norm_num
  have hg : (2 : ℚ) ^ (-51 : ℤ) = 1 / 2 ^ 51 := by norm_num
  have hq : (7205759403792794 / 2 ^ 52 + 8106479329266893 / 2 ^ 54 : ℚ) / (1 / 2 ^ 51)
      = 36929516944438069 / 8 := by norm_num
  have hr : rhe ((7205759403792794 / 2 ^ 52 + 8106479329266893 / 2 ^ 54 : ℚ) / (1 / 2 ^ 51))
      = 4616189618054759 := by
    rw [hq, rhe_eval_up (f := 4616189618054758) (floor_eval (by norm_num) (by norm_num))
      (by norm_num)]
    norm_num
  rw [round64_eval (by norm_num) he (by decide) hg hr]
  norm_num

theorem round64_two : round64 (2 : ℚ) = 2 := by
  have hn2 : natLog2 2 = 1 := rfl
  have hfl : ⌊(2 : ℚ)⌋ = 2 := floor_eval (by norm_num) (by norm_num)
  have he : qlog2 (2 : ℚ) = 1 := by
    rw [qlog2_eval_ge_one (n := 2) (by norm_num) hfl rfl, hn2]
    norm_num
  have hg : (2 : ℚ) ^ (-51 : ℤ) = 1 / 2 ^ 51 := by norm_num
  have hq : (2 : ℚ) / (1 / 2 ^ 51) = 4503599627370496 := by norm_num
  have hr : rhe ((2 : ℚ) / (1 / 2 ^ 51)) = 4503599627370496 := by
    rw [hq]
    exact rhe_eval_down (floor_eval (by norm_num) (by norm_num)) (by norm_num)
  rw [round64_eval (by norm_num) he (by decide) hg hr]
  norm_num

theorem two_zpow_mono {a b : ℤ} (h : a ≤ b) : (2 : ℚ) ^ a ≤ (2 : ℚ) ^ b := by
  have hb : (2 : ℚ) ^ b = (2 : ℚ) ^ a * 2 ^ (b - a) := by
    rw [← zpow_add₀ (by norm_num : (2 : ℚ) ≠ 0)]
    congr 1
    omega
  have h1 : (1 : ℚ) ≤ 2 ^ (b - a) := by
    have he : (b - a) = ((b - a).toNat : ℤ) := by omega
    rw [he, zpow_natCast]
    exact one_le_pow₀ (by norm_num)
  nlinarith [zpow_pos (by norm_num : (0 : ℚ) < 2) a]

/-- The binade exponent is sound from below: `2 ^ qlog2 q ≤ q` for
positive `q`. -/
theorem two_zpow_qlog2_le {q : ℚ} (h : 0 < q) : (2 : ℚ) ^ qlog2 q ≤ q := by
  unfold qlog2
  by_cases h1 : 1 ≤ q
  · rw [if_pos h1]
    have hm : 1 ≤ ⌊q⌋ := Int.le_floor.mpr (by exact_mod_cast h1)
    have hmn : 1 ≤ ⌊q⌋.toNat := by omega
    have hle := natLog2_le_self hmn
    calc (2 : ℚ) ^ (natLog2 ⌊q⌋.toNat : ℤ)
        = ((2 ^ natLog2 ⌊q⌋.toNat : ℕ) : ℚ) := by rw [zpow_natCast]; push_cast; ring
      _ ≤ (⌊q⌋.toNat : ℚ) := by exact_mod_cast hle
      _ = ((⌊q⌋ : ℤ) : ℚ) := by
          have he : (⌊q⌋.toNat : ℤ) = ⌊q⌋ := by omega
          exact_mod_cast he
      _ ≤ q := Int.floor_le q
  · rw [if_neg h1]
    by_cases hex : q * 2 ^ natLog2 ⌊1 / q⌋.toNat = 1
    · rw [if_pos hex]
      rw [zpow_neg, zpow_natCast]
      exact le_of_eq (eq_inv_of_mul_eq_one_left hex).symm
    · rw [if_neg hex]
      have hy : (1 : ℚ) ≤ 1 / q := by
        rw [le_div_iff₀ h, one_mul]
        exact (not_le.mp h1).le
      have hfl1 : 1 ≤ ⌊1 / q⌋ := Int.le_floor.mpr (by exact_mod_cast hy)
      have hmn : 1 ≤ ⌊1 / q⌋.toNat := by omega
      have hup := lt_natLog2_succ hmn
      have hylt : 1 / q < ((2 ^ (natLog2 ⌊1 / q⌋.toNat + 1) : ℕ) : ℚ) := by
        calc 1 / q < (⌊1 / q⌋ : ℚ) + 1 := Int.lt_floor_add_one _
          _ ≤ ((2 ^ (natLog2 ⌊1 / q⌋.toNat + 1) : ℕ) : ℚ) := by
              have h2 : ⌊1 / q⌋ + 1 ≤ ((2 ^ (natLog2 ⌊1 / q⌋.toNat + 1) : ℕ) : ℤ) := by
                omega
              exact_mod_cast h2
      have hpow : (0 : ℚ) < ((2 ^ (natLog2 ⌊1 / q⌋.toNat + 1) : ℕ) : ℚ) := by positivity
      have h1q : (1 : ℚ) < ((2 ^ (natLog2 ⌊1 / q⌋.toNat + 1) : ℕ) : ℚ) * q := by
        have hd := (div_lt_iff₀ h).mp hylt
        linarith
      have hqge : ((2 ^ (natLog2 ⌊1 / q⌋.toNat + 1) : ℕ) : ℚ)⁻¹ ≤ q := by
        rw [inv_eq_one_div, div_le_iff₀ hpow]
        linarith
      have hrw : (2 : ℚ) ^ (-(natLog2 ⌊1 / q⌋.toNat : ℤ) - 1)
          = ((2 ^ (natLog2 ⌊1 / q⌋.toNat + 1) : ℕ) : ℚ)⁻¹ := by
        have he1 : (-(natLog2 ⌊1 / q⌋.toNat : ℤ) - 1) = -((natLog2 ⌊1 / q⌋.toNat : ℤ) + 1) := by
          ring
        rw [he1, zpow_neg]
        congr 1
        rw [show ((natLog2 ⌊1 / q⌋.toNat : ℤ) + 1) = ((natLog2 ⌊1 / q⌋.toNat + 1 : ℕ) : ℤ) by
          push_cast; ring]
        rw [zpow_natCast]
        push_cast
        ring
      rw [hrw]
      exact hqge

/-- Rounding keeps nonnegative values nonnegative. -/
theorem round64_nonneg {q : ℚ} (h : 0 ≤ q) : 0 ≤ round64 q := by
  rcases eq_or_lt_of_le h with heq | hlt
  · rw [← heq, round64_zero]
  · unfold round64 gridExp
    rw [if_neg (ne_of_gt hlt), if_pos hlt]
    have hpk : (0 : ℚ) < 2 ^ max (-1074 : ℤ) (qlog2 q - 52) :=
      zpow_pos (by norm_num) _
    have hdiv : (0 : ℚ) ≤ q / 2 ^ max (-1074 : ℤ) (qlog2 q - 52) :=
      div_nonneg hlt.le hpk.le
    have hfl : 0 ≤ ⌊q / 2 ^ max (-1074 : ℤ) (qlog2 q - 52)⌋ := Int.floor_nonneg.mpr hdiv
    have hrhe : 0 ≤ rhe (q / 2 ^ max (-1074 : ℤ) (qlog2 q - 52)) :=
      le_trans hfl (le_rhe _)
    have hc : (0 : ℚ) ≤ (rhe (q / 2 ^ max (-1074 : ℤ) (qlog2 q - 52)) : ℚ) := by
      exact_mod_cast hrhe
    exact mul_nonneg hc hpk.le

/-- Rounding a value of `[0, 2]` stays in `[0, 2]`: below `2` the next
grid point up is at most `2` (the grid at that magnitude is no coarser
than `2 ^ (-51)` and `2` lies on it), and `2` itself is representable. -/
theorem round64_le_two {q : ℚ} (h0 : 0 ≤ q) (h2 : q ≤ 2) : round64 q ≤ 2 := by
  rcases eq_or_lt_of_le h0 with heq | hpos
  · rw [← heq, round64_zero]
    norm_num
  · rcases eq_or_lt_of_le h2 with heq2 | hlt
    · rw [heq2, round64_two]
    · unfold round64 gridExp
      rw [if_neg (ne_of_gt hpos), if_pos hpos]
      have hqlog : qlog2 q ≤ 1 := by
        by_contra hcon
        push_neg at hcon
        have h4 : (2 : ℚ) ^ (2 : ℤ) ≤ (2 : ℚ) ^ qlog2 q := two_zpow_mono (by omega)
        have hle := two_zpow_qlog2_le hpos
        have h4v : ((2 : ℚ) ^ (2 : ℤ)) = 4 := by norm_num
        linarith
      set k := max (-1074 : ℤ) (qlog2 q - 52) with hkdef
      have hk1 : k ≤ -51 := by
        rw [hkdef]
        have ha : (-1074 : ℤ) ≤ -51 := by norm_num
        have hb : qlog2 q - 52 ≤ -51 := by omega
        exact max_le ha hb
      have hpk : (0 : ℚ) < 2 ^ k := zpow_pos (by norm_num) _
      have hint : (2 : ℚ) ^ ((1 : ℤ) - k) = ((2 ^ (1 - k).toNat : ℤ) : ℚ) := by
        have he : (1 : ℤ) - k = ((1 - k).toNat : ℤ) := by omega
        conv_lhs => rw [he]
        rw [zpow_natCast]
        push_cast
        ring
      have hlt2 : q / 2 ^ k < ((2 ^ (1 - k).toNat : ℤ) : ℚ) := by
        rw [← hint, div_lt_iff₀ hpk, ← zpow_add₀ (by norm_num : (2 : ℚ) ≠ 0)]
        have he2 : (1 : ℤ) - k + k = 1 := by omega
        rw [he2, zpow_one]
        exact hlt
      have hfl : ⌊q / 2 ^ k⌋ < 2 ^ (1 - k).toNat := Int.floor_lt.mpr hlt2
      have hrb : rhe (q / 2 ^ k) ≤ 2 ^ (1 - k).toNat := by
        have hu := rhe_le (q / 2 ^ k)
        omega
      calc (rhe (q / 2 ^ k) : ℚ) * 2 ^ k
          ≤ ((2 ^ (1 - k).toNat : ℤ) : ℚ) * 2 ^ k := by
            apply mul_le_mul_of_nonneg_right _ hpk.le
            exact_mod_cast hrb
        _ = 2 ^ ((1 : ℤ) - k) * 2 ^ k := by rw [hint]
        _ = 2 := by
            rw [← zpow_add₀ (by norm_num : (2 : ℚ) ≠ 0)]
            have he2 : (1 : ℤ) - k + k = 1 := by omega
            rw [he2, zpow_one]

/-! ### Candidate scoring and ranking

Source: `scoring.py` lines 119–176 (`rank_candidates`).  The client is the
function `getSubs`; the per-call memo cache and the order of client fetches
are modeled explicitly so that the fetch behavior itself is provable: the
second component of the result is the list of identifiers passed to
`client.get_submissions`, in order. -/

structure Candidate where
  cik10 : String
  edgar_name : String
  name_score : ℚ
deriving DecidableEq

structure RankedCandidate where
  cik10 : String
  edgar_name : String
  name_score : ℚ
  addr_score : ℚ
  total_score : ℚ
  matched_city : Option String := none
  matched_zip : Option String := none
  form : Option String := none
  accession : Option String := none
  filingDate : Option String := none
  header_url : Option String := none
deriving DecidableEq

/-- One iteration of the address-slot loop (scoring.py:154–162), updating
`(matched_city, matched_zip, city_score, zip_score)`. -/
def slotStep (sim : String → String → ℚ) (cityIn zipIn : String)
    (st : Option String × Option String × ℚ × ℚ) (block : AddrBlock) :
    Option String × Option String × ℚ × ℚ :=
  let c := normCity block.city
  let z := normZip5 block.zip5
  let s := if c ≠ "" then tokenSetSim sim cityIn c else 0
  let mc := if st.2.2.1 < s then (if block.city ≠ "" then some block.city else st.1) else st.1
  let cs := if st.2.2.1 < s then s else st.2.2.1
  let zipHit := z ≠ "" ∧ zipIn ≠ "" ∧ z = zipIn
  let mz := if zipHit then some z else st.2.1
  let zs := if zipHit then (1 : ℚ) else st.2.2.2
  (mc, mz, cs, zs)

/-- The full slot loop over `("business", "mail")`. -/
def cityZipScores (sim : String → String → ℚ) (cityIn zipIn : String)
    (subs : Option Subs) : Option String × Option String × ℚ × ℚ :=
  [(addressesFromSubmissions subs).1, (addressesFromSubmissions subs).2].foldl
    (slotStep sim cityIn zipIn) (none, none, 0, 0)

/-- The `RankedCandidate` built for one candidate from its (possibly
missing) submissions document (scoring.py:148–173).  The two score sums
`city_score + zip_score` and `addr_score + 0.5 * float(cand.name_score)`
and the product `0.5 * ...` are Python float operations, embedded as the
binary64 operations `fadd64`/`fmul64`; the literal `0.5` is exactly
representable, and `float(...)` on an already-float value is the
identity. -/
def scoreCandidate (sim : String → String → ℚ) (cityIn zipIn : String)
    (subs : Option Subs) (cand : Candidate) : RankedCandidate :=
  let st := cityZipScores sim cityIn zipIn subs
  let meta := metaFromSubs subs
  { cik10 := cand.cik10
    edgar_name := cand.edgar_name
    name_score := cand.name_score
    addr_score := fadd64 st.2.2.1 st.2.2.2
    total_score := fadd64 (fadd64 st.2.2.1 st.2.2.2) (fmul64 (1 / 2) cand.name_score)
    matched_city := st.1
    matched_zip := st.2.1
    form := meta.form
    accession := meta.accession
    filingDate := meta.filingDate
    header_url := none }

/-- Read of the per-call memo cache, `_cache.get(cik10)`: a Python
`dict.get` returns the stored value or `None` when the key is absent — and
the stored values here are themselves `Optional`, so a stored `None` is
indistinguishable from a missing key.  The flattening `Option.bind` is
exactly that conflation. -/
def cacheLookup (cache : List (String × Option Subs)) (k : String) : Option Subs :=
  (cache.find? (fun p => p.1 == k)).bind (fun p => p.2)

/-- The sort key of scoring.py:175 as one lexicographic value:
`(-total_score, -addr_score, _parse_date_iso(filingDate))`, compared
ascending. -/
def rankKey (rc : RankedCandidate) :
    Lex (ℚ × Lex (ℚ × Lex (ℕ × Lex (ℕ × ℕ)))) :=
  toLex (-rc.total_score, toLex (-rc.addr_score,
    toLex ((parseDateIso rc.filingDate).1,
      toLex ((parseDateIso rc.filingDate).2.1, (parseDateIso rc.filingDate).2.2))))

/-- Comparison used to sort ranked candidates. -/
def rankedLe (a b : RankedCandidate) : Bool := decide (rankKey a ≤ rankKey b)

/-- The body of the candidate loop of `rank_candidates`
(scoring.py:141–173): consult the memo cache, fetch from the client on a
miss (recording the identifier in the fetch log), and append the scored
candidate. -/
def rankStep (sim : String → String → ℚ) (getSubs : String → Option Subs)
    (cityIn zipIn : String)
    (st : List RankedCandidate × List (String × Option Subs) × List String)
    (cand : Candidate) :
    List RankedCandidate × List (String × Option Subs) × List String :=
  match cacheLookup st.2.1 cand.cik10 with
  | some subs =>
    (st.1 ++ [scoreCandidate sim cityIn zipIn (some subs) cand], st.2.1, st.2.2)
  | none =>
    let subs := getSubs cand.cik10
    (st.1 ++ [scoreCandidate sim cityIn zipIn subs cand],
     (cand.cik10, subs) :: st.2.1, st.2.2 ++ [cand.cik10])

/-- Embedding of `rank_candidates` (scoring.py:119–176).  Returns the
ranked list together with the ordered list of identifiers fetched from the
client.  The memo cache is threaded through the candidate loop; its read
path is `cacheLookup` (see there for the `dict.get` conflation). -/
def rankCandidates (sim : String → String → ℚ) (getSubs : String → Option Subs)
    (candidates : List Candidate) (city zip5 : String) (limit : ℕ) :
    List RankedCandidate × List String :=
  if candidates.isEmpty then ([], [])
  else
    let cityIn := normCity city
    let zipIn := normZip5 zip5
    let res := candidates.foldl (rankStep sim getSubs cityIn zipIn) ([], [], [])
    ((pySort rankedLe res.1).take limit, res.2.2)

/-! ### Facts about the stable sort -/

theorem insertLe_cons_pos {le : α → α → Bool} {x y : α} (ys : List α)
    (h : le x y = true) : insertLe le x (y :: ys) = x :: y :: ys := by
  simp [insertLe, h]

theorem insertLe_cons_neg {le : α → α → Bool} {x y : α} (ys : List α)
    (h : ¬ le x y = true) : insertLe le x (y :: ys) = y :: insertLe le x ys := by
  simp [insertLe, h]

theorem mem_insertLe {le : α → α → Bool} {x a : α} :
    ∀ {l : List α}, a ∈ insertLe le x l ↔ a = x ∨ a ∈ l := by
  intro l
  induction l with
  | nil => simp [insertLe]
  | cons y ys ih =>
    by_cases h : le x y
    · rw [insertLe_cons_pos ys h]
      simp
    · rw [insertLe_cons_neg ys h]
      simp only [List.mem_cons, ih]
      tauto

theorem mem_pySort {le : α → α → Bool} {a : α} :
    ∀ {l : List α}, a ∈ pySort le l ↔ a ∈ l := by
  intro l
  induction l with
  | nil => simp [pySort]
  | cons x xs ih => simp [pySort, mem_insertLe, ih]

theorem length_insertLe {le : α → α → Bool} (x : α) :
    ∀ (l : List α), (insertLe le x l).length = l.length + 1 := by
  intro l
  induction l with
  | nil => rfl
  | cons y ys ih =>
    by_cases h : le x y
    · rw [insertLe_cons_pos ys h]
      rfl
    · rw [insertLe_cons_neg ys h]
      simp [ih]

theorem length_pySort {le : α → α → Bool} :
    ∀ (l : List α), (pySort le l).length = l.length := by
  intro l
  induction l with
  | nil => rfl
  | cons x xs ih => simp [pySort, length_insertLe, ih]

theorem pairwise_insertLe {le : α → α → Bool}
    (htrans : ∀ a b c, le a b = true → le b c = true → le a c = true)
    (htotal : ∀ a b, le a b = true ∨ le b a = true) (x : α) :
    ∀ {l : List α}, l.Pairwise (fun a b => le a b = true) →
      (insertLe le x l).Pairwise (fun a b => le a b = true) := by
  intro l
  induction l with
  | nil => intro _; simp [insertLe]
  | cons y ys ih =>
    intro h
    rcases List.pairwise_cons.mp h with ⟨hy, hys⟩
    by_cases hxy : le x y
    · rw [insertLe_cons_pos ys hxy]
      refine List.pairwise_cons.mpr ⟨?_, h⟩
      intro b hb
      rcases List.mem_cons.mp hb with heq | hb
      · rw [heq]
        exact hxy
      · exact htrans x y b hxy (hy b hb)
    · rw [insertLe_cons_neg ys hxy]
      refine List.pairwise_cons.mpr ⟨?_, ih hys⟩
      intro b hb
      rcases mem_insertLe.mp hb with heq | hb
      · rcases htotal x y with h1 | h1
        · exact absurd h1 hxy
        · rw [heq]
          exact h1
      · exact hy b hb

theorem pairwise_pySort {le : α → α → Bool}
    (htrans : ∀ a b c, le a b = true → le b c = true → le a c = true)
    (htotal : ∀ a b, le a b = true ∨ le b a = true) :
    ∀ (l : List α), (pySort le l).Pairwise (fun a b => le a b = true) := by
  intro l
  induction l with
  | nil => simp [pySort]
  | cons x xs ih => exact pairwise_insertLe htrans htotal x ih

theorem rankedLe_trans (a b c : RankedCandidate)
    (h1 : rankedLe a b = true) (h2 : rankedLe b c = true) : rankedLe a c = true := by
  simp only [rankedLe, decide_eq_true_eq] at h1 h2 ⊢
  exact le_trans h1 h2

theorem rankedLe_total (a b : RankedCandidate) :
    rankedLe a b = true ∨ rankedLe b a = true := by
  simp only [rankedLe, decide_eq_true_eq]
  exact le_total _ _


/-- Comparisons by the rank key refine the claim's order: strictly larger
total score first, and on equal totals, no smaller address score. -/
theorem rankedLe_imp {a b : RankedCandidate} (h : rankedLe a b = true) :
    b.total_score < a.total_score ∨
      (b.total_score = a.total_score ∧ b.addr_score ≤ a.addr_score) := by
  simp only [rankedLe, decide_eq_true_eq, rankKey] at h
  rcases (Prod.Lex.le_iff _ _).mp h with hlt | ⟨heq, hrest⟩
  · exact Or.inl (neg_lt_neg_iff.mp hlt)
  · have htot : b.total_score = a.total_score := (neg_inj.mp heq).symm
    rcases (Prod.Lex.le_iff _ _).mp hrest with hlt2 | ⟨heq2, _⟩
    · exact Or.inr ⟨htot, le_of_lt (neg_lt_neg_iff.mp hlt2)⟩
    · exact Or.inr ⟨htot, le_of_eq (neg_inj.mp heq2).symm⟩

/-! ### What the scored list is: one scored entry per candidate, with the
document obtained from the client through the cache -/

theorem rankFold_scored (sim : String → String → ℚ) (getSubs : String → Option Subs)
    (cityIn zipIn : String) :
    ∀ (cands : List Candidate) (acc : List RankedCandidate)
      (cache : List (String × Option Subs)) (log : List String),
      (∀ p ∈ cache, p.2 = getSubs p.1) →
      (cands.foldl (rankStep sim getSubs cityIn zipIn) (acc, cache, log)).1
        = acc ++ cands.map (fun c => scoreCandidate sim cityIn zipIn (getSubs c.cik10) c) := by
  intro cands
  induction cands with
  | nil => intro acc cache log _; simp
  | cons c cs ih =>
    intro acc cache log hcache
    rw [List.foldl_cons]
    cases hlook : cacheLookup cache c.cik10 with
    | some subs =>
      have hsubs : getSubs c.cik10 = some subs := by
        unfold cacheLookup at hlook
        rcases Option.bind_eq_some.mp hlook with ⟨p, hfind, hp2⟩
        have hkey : p.1 = c.cik10 := by
          have := List.find?_some hfind
          simpa [beq_iff_eq] using this
        have hmem := List.mem_of_find?_eq_some hfind
        rw [← hkey, ← hcache p hmem, hp2]
      have hstep : rankStep sim getSubs cityIn zipIn (acc, cache, log) c
          = (acc ++ [scoreCandidate sim cityIn zipIn (some subs) c], cache, log) := by
        simp [rankStep, hlook]
      rw [hstep, ih _ _ _ hcache, ← hsubs]
      simp
    | none =>
      have hstep : rankStep sim getSubs cityIn zipIn (acc, cache, log) c
          = (acc ++ [scoreCandidate sim cityIn zipIn (getSubs c.cik10) c],
             (c.cik10, getSubs c.cik10) :: cache, log ++ [c.cik10]) := by
        simp [rankStep, hlook]
      rw [hstep]
      rw [ih _ _ _ ?_]
      · simp
      · intro p hp
        rcases List.mem_cons.mp hp with rfl | hp
        · rfl
        · exact hcache p hp

/-- The ranked list of `rank_candidates` is exactly the per-candidate
scores, with each candidate scored against the document the client returns
for its identifier, sorted by the rank key and truncated to `limit`. -/
theorem rankCandidates_fst (sim : String → String → ℚ) (getSubs : String → Option Subs)
    (cands : List Candidate) (city zip5 : String) (limit : ℕ) :
    (rankCandidates sim getSubs cands city zip5 limit).1
      = (pySort rankedLe (cands.map
          (fun c => scoreCandidate sim (normCity city) (normZip5 zip5) (getSubs c.cik10) c))).take limit := by
  by_cases h : cands.isEmpty
  · have : cands = [] := List.isEmpty_iff.mp h
    subst this
    simp [rankCandidates, pySort]
  · unfold rankCandidates
    rw [if_neg h]
    show (List.take limit (pySort rankedLe
        (List.foldl (rankStep sim getSubs (normCity city) (normZip5 zip5)) ([], [], []) cands).1),
      (List.foldl (rankStep sim getSubs (normCity city) (normZip5 zip5)) ([], [], []) cands).2.2).1 = _
    rw [rankFold_scored sim getSubs _ _ cands [] [] [] (by intro p hp; simp at hp)]
    simp

/-! ### The address-score decomposition -/

/-- The postal-match condition for one address slot (scoring.py:161): the
slot's normalized postal code is non-empty, the normalized query postal
code is non-empty, and they are equal. -/
def slotZipHit (zipIn : String) (block : AddrBlock) : Prop :=
  normZip5 block.zip5 ≠ "" ∧ zipIn ≠ "" ∧ normZip5 block.zip5 = zipIn

instance (zipIn : String) (block : AddrBlock) : Decidable (slotZipHit zipIn block) := by
  unfold slotZipHit
  infer_instance

/-- Some address slot of the candidate's document matches the query postal
code exactly. -/
def zipBonusHit (zipIn : String) (subs : Option Subs) : Prop :=
  slotZipHit zipIn (addressesFromSubmissions subs).1 ∨
    slotZipHit zipIn (addressesFromSubmissions subs).2

instance (zipIn : String) (subs : Option Subs) : Decidable (zipBonusHit zipIn subs) := by
  unfold zipBonusHit
  infer_instance

/-- The city-similarity contribution of one candidate (the `city_score`
accumulated over the two address slots). -/
def cityScoreOf (sim : String → String → ℚ) (cityIn zipIn : String)
    (subs : Option Subs) : ℚ :=
  (cityZipScores sim cityIn zipIn subs).2.2.1

theorem cityZipScores_zip (sim : String → String → ℚ) (cityIn zipIn : String)
    (subs : Option Subs) :
    (cityZipScores sim cityIn zipIn subs).2.2.2
      = if zipBonusHit zipIn subs then (1 : ℚ) else 0 := by
  unfold cityZipScores zipBonusHit slotZipHit
  simp only [List.foldl_cons, List.foldl_nil]
  unfold slotStep
  by_cases h1 : normZip5 (addressesFromSubmissions subs).1.zip5 ≠ "" ∧ zipIn ≠ "" ∧
      normZip5 (addressesFromSubmissions subs).1.zip5 = zipIn <;>
    by_cases h2 : normZip5 (addressesFromSubmissions subs).2.zip5 ≠ "" ∧ zipIn ≠ "" ∧
        normZip5 (addressesFromSubmissions subs).2.zip5 = zipIn <;>
      simp [h1, h2]

theorem tokenSetSim_bounds (sim : String → String → ℚ)
    (hsim : ∀ a b, 0 ≤ sim a b ∧ sim a b ≤ 1) (a b : String) :
    0 ≤ tokenSetSim sim a b ∧ tokenSetSim sim a b ≤ 1 := by
  unfold tokenSetSim
  by_cases h : normCity a = "" ∨ normCity b = ""
  · rw [if_pos h]
    norm_num
  · rw [if_neg h]
    exact ⟨le_max_of_le_left (hsim _ _).1, max_le (hsim _ _).2 (hsim _ _).2⟩

theorem ite_lt_eq_max (a b : ℚ) : (if a < b then b else a) = max a b := by
  rcases lt_or_le a b with h | h
  · rw [if_pos h, max_eq_right h.le]
  · rw [if_neg (not_lt.mpr h), max_eq_left h]

theorem cityScoreOf_eq_max (sim : String → String → ℚ) (cityIn zipIn : String)
    (subs : Option Subs) :
    cityScoreOf sim cityIn zipIn subs
      = max (max 0
          (if normCity (addressesFromSubmissions subs).1.city ≠ "" then
            tokenSetSim sim cityIn (normCity (addressesFromSubmissions subs).1.city) else 0))
          (if normCity (addressesFromSubmissions subs).2.city ≠ "" then
            tokenSetSim sim cityIn (normCity (addressesFromSubmissions subs).2.city) else 0) := by
  unfold cityScoreOf cityZipScores
  simp only [List.foldl_cons, List.foldl_nil]
  unfold slotStep
  simp only []
  rw [ite_lt_eq_max, ite_lt_eq_max]

theorem cityScoreOf_bounds (sim : String → String → ℚ)
    (hsim : ∀ a b, 0 ≤ sim a b ∧ sim a b ≤ 1) (cityIn zipIn : String)
    (subs : Option Subs) :
    0 ≤ cityScoreOf sim cityIn zipIn subs ∧ cityScoreOf sim cityIn zipIn subs ≤ 1 := by
  rw [cityScoreOf_eq_max]
  have hb : ∀ c : String, 0 ≤ (if c ≠ "" then tokenSetSim sim cityIn c else 0) ∧
      (if c ≠ "" then tokenSetSim sim cityIn c else 0) ≤ 1 := by
    intro c
    split
    · exact tokenSetSim_bounds sim hsim cityIn c
    · norm_num
  constructor
  · exact le_max_of_le_left (le_max_left _ _)
  · exact max_le (max_le (by norm_num) (hb _).2) (hb _).2

theorem scoreCandidate_name (sim : String → String → ℚ) (cityIn zipIn : String)
    (subs : Option Subs) (cand : Candidate) :
    (scoreCandidate sim cityIn zipIn subs cand).name_score = cand.name_score := rfl

theorem scoreCandidate_total (sim : String → String → ℚ) (cityIn zipIn : String)
    (subs : Option Subs) (cand : Candidate) :
    (scoreCandidate sim cityIn zipIn subs cand).total_score
      = fadd64 (scoreCandidate sim cityIn zipIn subs cand).addr_score
        (fmul64 (1 / 2) (scoreCandidate sim cityIn zipIn subs cand).name_score) := rfl

theorem scoreCandidate_addr (sim : String → String → ℚ) (cityIn zipIn : String)
    (subs : Option Subs) (cand : Candidate) :
    (scoreCandidate sim cityIn zipIn subs cand).addr_score
      = fadd64 (cityScoreOf sim cityIn zipIn subs)
        (if zipBonusHit zipIn subs then (1 : ℚ) else 0) := by
  show fadd64 (cityZipScores sim cityIn zipIn subs).2.2.1
    (cityZipScores sim cityIn zipIn subs).2.2.2 = _
  rw [cityZipScores_zip]
  rfl

/-! ### Claims C2, C3 and C6 -/

/-- C2 (amended): every ranked candidate produced by `rank_candidates`
satisfies the scoring invariant as the source actually computes it, in
IEEE-754 binary64 arithmetic: `total_score` is the double sum of
`addr_score` and the double product `0.5 * name_score`, and `addr_score`
is the double sum of the city-similarity contribution and a postal bonus
that is exactly 1 on a postal match and exactly 0 otherwise; `addr_score`
lies in `[0, 2]` (given the documented `[0, 1]` range of the
`SequenceMatcher` ratio).  The spec's arithmetic example holds only up to
rounding: with `name_score` the double `0.9` and city similarity the
double `0.6` and an exact postal match, `addr_score` is exactly the double
`1.6` (that sum happens to round to it), but `total_score` is the double
`2.0500000000000003 = 4616189618054759 / 2 ^ 51`, one unit in the last
place ABOVE `2.05` — not `2.05` exactly as the spec asserts (see
`C2_float_counterexample`). -/
theorem C2_score_invariant (sim : String → String → ℚ)
    (hsim : ∀ a b, 0 ≤ sim a b ∧ sim a b ≤ 1)
    (getSubs : String → Option Subs) (cands : List Candidate)
    (city zip5 : String) (limit : ℕ) (rc : RankedCandidate)
    (hmem : rc ∈ (rankCandidates sim getSubs cands city zip5 limit).1) :
    rc.total_score = fadd64 rc.addr_score (fmul64 (1 / 2) rc.name_score) ∧
    ∃ c ∈ cands, rc.name_score = c.name_score ∧
      rc.addr_score = fadd64 (cityScoreOf sim (normCity city) (normZip5 zip5) (getSubs c.cik10))
        (if zipBonusHit (normZip5 zip5) (getSubs c.cik10) then (1 : ℚ) else 0) ∧
      0 ≤ rc.addr_score ∧ rc.addr_score ≤ 2 ∧
      (rc.name_score = 8106479329266893 / 2 ^ 53 ∧
        cityScoreOf sim (normCity city) (normZip5 zip5) (getSubs c.cik10)
          = 5404319552844595 / 2 ^ 53 ∧
        zipBonusHit (normZip5 zip5) (getSubs c.cik10) →
        rc.addr_score = 7205759403792794 / 2 ^ 52 ∧
        rc.total_score = 4616189618054759 / 2 ^ 51 ∧
        rc.total_score ≠ 41 / 20) := by
  rw [rankCandidates_fst] at hmem
  have hmem2 : rc ∈ cands.map
      (fun c => scoreCandidate sim (normCity city) (normZip5 zip5) (getSubs c.cik10) c) :=
    mem_pySort.mp ((List.take_sublist _ _).mem hmem)
  rcases List.mem_map.mp hmem2 with ⟨c, hc, rfl⟩
  have hbounds := cityScoreOf_bounds sim hsim (normCity city) (normZip5 zip5) (getSubs c.cik10)
  have hite : (0 : ℚ) ≤ (if zipBonusHit (normZip5 zip5) (getSubs c.cik10) then (1 : ℚ) else 0) ∧
      (if zipBonusHit (normZip5 zip5) (getSubs c.cik10) then (1 : ℚ) else 0) ≤ 1 := by
    split <;> norm_num
  refine ⟨scoreCandidate_total _ _ _ _ _, c, hc, scoreCandidate_name _ _ _ _ _,
    scoreCandidate_addr _ _ _ _ _, ?_, ?_, ?_⟩
  · rw [scoreCandidate_addr, fadd64_def]
    exact round64_nonneg (add_nonneg hbounds.1 hite.1)
  · rw [scoreCandidate_addr, fadd64_def]
    refine round64_le_two (add_nonneg hbounds.1 hite.1) ?_
    calc cityScoreOf sim (normCity city) (normZip5 zip5) (getSubs c.cik10)
        + (if zipBonusHit (normZip5 zip5) (getSubs c.cik10) then (1 : ℚ) else 0)
        ≤ 1 + 1 := add_le_add hbounds.2 hite.2
      _ = 2 := by norm_num
  · rintro ⟨hname, hcity, hhit⟩
    have haddr : (scoreCandidate sim (normCity city) (normZip5 zip5)
        (getSubs c.cik10) c).addr_score = 7205759403792794 / 2 ^ 52 := by
      rw [scoreCandidate_addr, hcity, if_pos hhit, fadd64_def]
      exact round64_onePoint6
    have htot : (scoreCandidate sim (normCity city) (normZip5 zip5)
        (getSubs c.cik10) c).total_score = 4616189618054759 / 2 ^ 51 := by
      rw [scoreCandidate_total, haddr, hname, fmul64_def, round64_point45, fadd64_def]
      exact round64_total205
    refine ⟨haddr, htot, ?_⟩
    rw [htot]
    norm_num

/-- C2 witness: the double-arithmetic invariant instantiated at a concrete
query and a single concrete candidate with a missing document. -/
theorem C2_score_invariant_witness :
    (∀ a b : String, (0 : ℚ) ≤ (fun _ _ => (0 : ℚ)) a b ∧ (fun _ _ => (0 : ℚ)) a b ≤ 1) ∧
    (scoreCandidate (fun _ _ => (0 : ℚ)) (normCity "") (normZip5 "") none
        { cik10 := "0000000001", edgar_name := "ACME", name_score := 1 }).total_score
      = fadd64 (scoreCandidate (fun _ _ => (0 : ℚ)) (normCity "") (normZip5 "") none
          { cik10 := "0000000001", edgar_name := "ACME", name_score := 1 }).addr_score
        (fmul64 (1 / 2) (scoreCandidate (fun _ _ => (0 : ℚ)) (normCity "") (normZip5 "") none
            { cik10 := "0000000001", edgar_name := "ACME", name_score := 1 }).name_score) := by
  constructor
  · intro a b
    norm_num
  · exact (C2_score_invariant (fun _ _ => 0) (fun a b => by norm_num) (fun _ => none)
      [{ cik10 := "0000000001", edgar_name := "ACME", name_score := 1 }] "" "" 1
      (scoreCandidate (fun _ _ => (0 : ℚ)) (normCity "") (normZip5 "") none
        { cik10 := "0000000001", edgar_name := "ACME", name_score := 1 })
      (by rw [rankCandidates_fst]; simp [pySort, insertLe])).1

/-- Similarity measure realizing the spec's C2 example: constantly the
double nearest `0.6` (the value a Python `0.6` city similarity is). -/
def c2sim : String → String → ℚ := fun _ _ => 5404319552844595 / 2 ^ 53

/-- Candidate realizing the spec's C2 example: `name_score` is the double
nearest `0.9`. -/
def c2cand : Candidate :=
  { cik10 := "0000000001"
    edgar_name := "ACME"
    name_score := 8106479329266893 / 2 ^ 53 }

/-- Submissions document realizing the spec's C2 example: a business
address whose postal code matches the query exactly. -/
def c2subs : Subs :=
  { addresses := some
      { business := some
          { city := some "SPRINGFIELD"
            zipCode := some "62704" }
        mailing := none }
    filings := none }

/-- The example candidate as scored against that document. -/
def c2ranked : RankedCandidate :=
  scoreCandidate c2sim (normCity "SPRINGFIELD") (normZip5 "62704") (some c2subs) c2cand

/-- C2 counterexample: running `rank_candidates` on the spec's own example
instance — `name_score` the double `0.9`, city similarity the double
`0.6`, an exact postal match — produces `addr_score` exactly the double
`1.6`, but `total_score = 4616189618054759 / 2 ^ 51 = 2.0500000000000003`:
it differs from the exact sum `addr_score + 0.5 * name_score` (refuting
the claim's invariant read as exact arithmetic) and from `2.05` (refuting
`total_score = 2.05 exactly`), because `1.6 + 0.45` rounds up one unit in
the last place in binary64. -/
theorem C2_float_counterexample :
    (rankCandidates c2sim (fun _ => some c2subs) [c2cand] "SPRINGFIELD" "62704" 10).1
      = [c2ranked] ∧
    c2ranked.name_score = 8106479329266893 / 2 ^ 53 ∧
    cityScoreOf c2sim (normCity "SPRINGFIELD") (normZip5 "62704") (some c2subs)
      = 5404319552844595 / 2 ^ 53 ∧
    zipBonusHit (normZip5 "62704") (some c2subs) ∧
    c2ranked.addr_score = 7205759403792794 / 2 ^ 52 ∧
    c2ranked.total_score = 4616189618054759 / 2 ^ 51 ∧
    c2ranked.total_score ≠ c2ranked.addr_score + (1 / 2) * c2ranked.name_score ∧
    c2ranked.total_score ≠ 41 / 20 := by
  have hhit : zipBonusHit (normZip5 "62704") (some c2subs) := by decide
  have hts : tokenSetSim c2sim (normCity "SPRINGFIELD") (normCity "SPRINGFIELD")
      = 5404319552844595 / 2 ^ 53 := by
    unfold tokenSetSim
    rw [if_neg (by decide)]
    simp only [c2sim, max_self]
  have hcity : cityScoreOf c2sim (normCity "SPRINGFIELD") (normZip5 "62704") (some c2subs)
      = 5404319552844595 / 2 ^ 53 := by
    rw [cityScoreOf_eq_max,
      show (addressesFromSubmissions (some c2subs)).1.city = "SPRINGFIELD" from rfl,
      show (addressesFromSubmissions (some c2subs)).2.city = "" from rfl,
      if_pos (by decide : normCity "SPRINGFIELD" ≠ ""),
      if_neg (by decide : ¬ normCity "" ≠ ""), hts,
      max_eq_left (le_max_left _ _), max_eq_right (by norm_num)]
  have haddr0 : (scoreCandidate c2sim (normCity "SPRINGFIELD") (normZip5 "62704")
      (some c2subs) c2cand).addr_score = 7205759403792794 / 2 ^ 52 := by
    rw [scoreCandidate_addr, hcity, if_pos hhit, fadd64_def]
    exact round64_onePoint6
  have hname0 : (scoreCandidate c2sim (normCity "SPRINGFIELD") (normZip5 "62704")
      (some c2subs) c2cand).name_score = 8106479329266893 / 2 ^ 53 := rfl
  have htot0 : (scoreCandidate c2sim (normCity "SPRINGFIELD") (normZip5 "62704")
      (some c2subs) c2cand).total_score = 4616189618054759 / 2 ^ 51 := by
    rw [scoreCandidate_total, haddr0, hname0, fmul64_def, round64_point45, fadd64_def]
    exact round64_total205
  have haddr : c2ranked.addr_score = 7205759403792794 / 2 ^ 52 := haddr0
  have hname : c2ranked.name_score = 8106479329266893 / 2 ^ 53 := hname0
  have htot : c2ranked.total_score = 4616189618054759 / 2 ^ 51 := htot0
  refine ⟨?_, hname, hcity, hhit, haddr, htot, ?_, ?_⟩
  · rw [rankCandidates_fst]
    rfl
  · rw [htot, haddr, hname]
    norm_num
  · rw [htot]
    norm_num

/-- C3: the list returned by `rank_candidates` is sorted by strictly
descending total score, with ties broken by non-increasing address score;
the filing-date key can only reorder candidates equal on both (so it never
overrides the primary ranking), and the list is truncated to `limit`. -/
theorem C3_rank_order (sim : String → String → ℚ) (getSubs : String → Option Subs)
    (cands : List Candidate) (city zip5 : String) (limit : ℕ) :
    (rankCandidates sim getSubs cands city zip5 limit).1.length ≤ limit ∧
    List.Pairwise (fun a b : RankedCandidate =>
        b.total_score < a.total_score ∨
          (b.total_score = a.total_score ∧ b.addr_score ≤ a.addr_score))
      (rankCandidates sim getSubs cands city zip5 limit).1 := by
  rw [rankCandidates_fst]
  refine ⟨List.length_take_le _ _, ?_⟩
  have hp := pairwise_pySort rankedLe_trans rankedLe_total
    (cands.map (fun c => scoreCandidate sim (normCity city) (normZip5 zip5) (getSubs c.cik10) c))
  exact List.Pairwise.sublist (List.take_sublist _ _) (hp.imp (fun h => rankedLe_imp h))

/-- C6 (code bug): two candidates with the same identifier whose document
is missing cause TWO client fetches in one `rank_candidates` call.  The
cache stores `None` for the identifier, but the read path `_cache.get`
cannot distinguish a stored `None` from an absent key, so the memoization
that scoring.py:139–146 sets up (and §4.3 of the specification promises)
fails in exactly the missing-document case. -/
theorem C6_memoization_bug :
    (rankCandidates (fun _ _ => 0) (fun _ => none)
      [{ cik10 := "0000000001", edgar_name := "ACME", name_score := 1 },
       { cik10 := "0000000001", edgar_name := "ACME", name_score := 1 }]
      "X" "1" 10).2 = ["0000000001", "0000000001"] := rfl

/-! ### Decimal representation and identifier normalization

Source: `submissions_store.py` lines 43–45 (`_cik10`) and `sec_client.py`
lines 15–19 (`_normalize_cik10`), both computing
`f"{int(str(cik).strip()):010d}"`: accept a string or integer, parse it as
a decimal integer, and left-pad the decimal representation with zeros to
width 10.  Python's `int()` raises `ValueError` for non-numeric text, so
the parse returns `Option`. -/

/-- Decimal digits of a natural number, most significant first, with an
explicit recursion budget (a budget of `n + 1` always suffices, because a
number has at most `n + 1` digits). -/
def natDigitsAux : ℕ → ℕ → List Char
  | 0, _ => []
  | fuel + 1, n =>
    if n < 10 then [Char.ofNat (48 + n)]
    else natDigitsAux fuel (n / 10) ++ [Char.ofNat (48 + n % 10)]

/-- Decimal digits of a natural number. -/
def natDigits (n : ℕ) : List Char := natDigitsAux (n + 1) n

/-- Decimal representation of an integer (the model of Python `str` on
`int`). -/
def intRepr (n : Int) : String :=
  if n < 0 then ⟨'-' :: natDigits (-n).toNat⟩ else ⟨natDigits n.toNat⟩

/-- The string `str(cik)` for a `str | int` argument. -/
def pyStrOfCik : String ⊕ Int → String
  | .inl s => s
  | .inr n => intRepr n

/-- Model of Python `int(s)` on a stripped string: an optional sign
followed by at least one ASCII digit (underscore digit grouping is not
modeled).  `none` is a raised `ValueError`. -/
def pyIntOfString (s : String) : Option Int :=
  let core : Int × List Char :=
    match s.toList with
    | [] => (1, [])
    | c :: rest =>
      if c = '-' then (-1, rest)
      else if c = '+' then (1, rest)
      else (1, c :: rest)
  if core.2 ≠ [] ∧ core.2.all Char.isDigit then
    some (core.1 * (natOfDigits core.2 : Int))
  else none

/-- Model of the format `f"{n:010d}"`: pad the decimal form with zeros on
the left to overall width 10 (for a negative number the sign occupies one
of the ten columns).  Note that this PADS and never truncates: a number
with more than ten digits keeps all of them. -/
def formatD10 (n : Int) : String :=
  if n < 0 then ⟨'-' :: zfill 9 (natDigits (-n).toNat)⟩
  else ⟨zfill 10 (natDigits n.toNat)⟩

/-- Embedding of `SubmissionsStore._cik10` (submissions_store.py:43–45),
with the `ValueError` of `int()` as `none`. -/
def storeCik10 (cik : String ⊕ Int) : Option String :=
  (pyIntOfString (pyStripS (pyStrOfCik cik))).map formatD10

/-- Embedding of `_normalize_cik10` (sec_client.py:15–19); the raised
`ValueError("Invalid CIK")` is `none`.  The computation is the same as
`SubmissionsStore._cik10`. -/
def normalizeCik10 (cik : String ⊕ Int) : Option String :=
  (pyIntOfString (pyStripS (pyStrOfCik cik))).map formatD10

/-! ### The submissions store

Source: `submissions_store.py` lines 19–75.  The backing storage (one
archive member / file path per identifier) is a function from the
conventional path to the parse outcome of that entry: `none` when the
entry does not exist (`KeyError` in ZIP mode, `p.exists()` false in
directory mode — both skipped), `some (.error ())` when the entry exists
but its JSON is invalid (`json.loads` raises, uncaught), and
`some (.ok doc)` for a good entry.  The instance-level result cache is
threaded explicitly; unlike the scoring cache, its read is a key-membership
test (`if cik10 in self._cache`), so cached misses ARE served from the
cache. -/

structure StoreModel where
  isZip : Bool
  entry : String → Option (Except Unit Subs)
  subdirExists : Bool

/-- The candidate locations probed by `SubmissionsStore.get`
(submissions_store.py:55 and 64–68). -/
def storePaths (st : StoreModel) (cik10 : String) : List String :=
  if st.isZip then
    ["submissions/CIK" ++ cik10 ++ ".json", "CIK" ++ cik10 ++ ".json"]
  else
    let base := if st.subdirExists then "<root>/submissions" else "<root>"
    [base ++ "/CIK" ++ cik10 ++ ".json",
     "<root>/CIK" ++ cik10 ++ ".json",
     "<root>/submissions/CIK" ++ cik10 ++ ".json"]

/-- Key-membership read of a cache association list (`if k in d`):
distinguishes a stored `none` from an absent key. -/
def cacheFind (cache : List (String × Option Subs)) (k : String) :
    Option (Option Subs) :=
  (cache.find? (fun p => p.1 == k)).map (fun p => p.2)

/-- First existing entry among the candidate paths: `none` entries are
skipped (caught `KeyError` / failed `exists()`), a present-but-invalid
entry propagates the `json.loads` exception, a present good entry wins. -/
def firstEntry (st : StoreModel) : List String → Except Unit (Option Subs)
  | [] => .ok none
  | p :: ps =>
    match st.entry p with
    | none => firstEntry st ps
    | some (.error e) => .error e
    | some (.ok d) => .ok (some d)

/-- Embedding of `SubmissionsStore.get` (submissions_store.py:47–75): the
result together with the updated cache; `Except.error` is a raised
exception (`ValueError` from `int()`, or a JSON parse error). -/
def storeGet (st : StoreModel) (cache : List (String × Option Subs))
    (cik : String ⊕ Int) :
    Except String (Option Subs × List (String × Option Subs)) :=
  match storeCik10 cik with
  | none => .error "invalid literal for int() with base 10"
  | some cik10 =>
    match cacheFind cache cik10 with
    | some v => .ok (v, cache)
    | none =>
      match firstEntry st (storePaths st cik10) with
      | .error _ => .error "json parse error"
      | .ok data => .ok (data, (cik10, data) :: cache)

/-! ### The offline client

Source: `sec_client.py` lines 83–96, `SecClient.get_submissions`: when a
`submissions_store` is configured the store is consulted and any exception
it raises is swallowed into `None`; only without a store is the live HTTP
endpoint used.  The network is modeled as an oracle `net`; the Boolean in
the result records whether that oracle was consulted. -/

/-- Embedding of `SecClient.get_submissions`.  The store, when present, is
an arbitrary fallible lookup (the model of `self.submissions_store.get`);
`net` is the live-endpoint oracle.  The result pairs the outcome
(`Except.error` = the `ValueError` raised by `_normalize_cik10`) with a
flag telling whether the network oracle was consulted. -/
def getSubmissionsClient (store : Option (String → Except Unit (Option Subs)))
    (net : String → Option Subs) (cik : String ⊕ Int) :
    Except String (Option Subs) × Bool :=
  match normalizeCik10 cik with
  | none => (.error "Invalid CIK", false)
  | some cik10 =>
    match store with
    | some sget =>
      ((match sget cik10 with
        | .error _ => Except.ok none
        | .ok doc => Except.ok doc), false)
    | none => (.ok (net cik10), true)

/-! ### Facts about decimal digits -/

theorem toNat_digitChar (d : ℕ) (h : d < 10) : (Char.ofNat (48 + d)).toNat = 48 + d := by
  interval_cases d <;> decide

theorem isDigit_digitChar (d : ℕ) (h : d < 10) : (Char.ofNat (48 + d)).isDigit = true := by
  interval_cases d <;> decide

theorem natOfDigits_append_single (xs : List Char) (c : Char) :
    natOfDigits (xs ++ [c]) = 10 * natOfDigits xs + (c.toNat - 48) := by
  simp [natOfDigits, List.foldl_append]

theorem natOfDigits_natDigitsAux :
    ∀ (fuel n : ℕ), n < 10 ^ fuel → natOfDigits (natDigitsAux fuel n) = n := by
  intro fuel
  induction fuel with
  | zero =>
    intro n h
    have : n = 0 := by simpa using h
    subst this
    rfl
  | succ fuel ih =>
    intro n h
    by_cases hn : n < 10
    · rw [show natDigitsAux (fuel + 1) n = [Char.ofNat (48 + n)] by
        simp [natDigitsAux, hn]]
      show natOfDigits [Char.ofNat (48 + n)] = n
      simp [natOfDigits, toNat_digitChar n hn]
    · rw [show natDigitsAux (fuel + 1) n
          = natDigitsAux fuel (n / 10) ++ [Char.ofNat (48 + n % 10)] by
        simp [natDigitsAux, hn]]
      rw [natOfDigits_append_single]
      have hdiv : n / 10 < 10 ^ fuel := by
        rw [Nat.div_lt_iff_lt_mul (by norm_num)]
        calc n < 10 ^ (fuel + 1) := h
          _ = 10 ^ fuel * 10 := by ring
      rw [ih (n / 10) hdiv, toNat_digitChar (n % 10) (Nat.mod_lt n (by norm_num))]
      omega

theorem lt_ten_pow_succ_self (n : ℕ) : n < 10 ^ (n + 1) :=
  lt_of_lt_of_le (Nat.lt_pow_self (by norm_num) n)
    (Nat.pow_le_pow_right (by norm_num) (Nat.le_succ n))

theorem natOfDigits_natDigits (n : ℕ) : natOfDigits (natDigits n) = n :=
  natOfDigits_natDigitsAux (n + 1) n (lt_ten_pow_succ_self n)

theorem natDigitsAux_all_digit :
    ∀ (fuel n : ℕ) (c : Char), c ∈ natDigitsAux fuel n → c.isDigit = true := by
  intro fuel
  induction fuel with
  | zero => intro n c h; simp [natDigitsAux] at h
  | succ fuel ih =>
    intro n c h
    by_cases hn : n < 10
    · rw [show natDigitsAux (fuel + 1) n = [Char.ofNat (48 + n)] by
        simp [natDigitsAux, hn]] at h
      rcases List.mem_singleton.mp h with rfl
      exact isDigit_digitChar n hn
    · rw [show natDigitsAux (fuel + 1) n
          = natDigitsAux fuel (n / 10) ++ [Char.ofNat (48 + n % 10)] by
        simp [natDigitsAux, hn]] at h
      rcases List.mem_append.mp h with h | h
      · exact ih (n / 10) c h
      · rcases List.mem_singleton.mp h with rfl
        exact isDigit_digitChar (n % 10) (Nat.mod_lt n (by norm_num))

theorem natDigitsAux_ne_nil (fuel n : ℕ) (h : 0 < fuel) : natDigitsAux fuel n ≠ [] := by
  cases fuel with
  | zero => omega
  | succ fuel =>
    by_cases hn : n < 10 <;> simp [natDigitsAux, hn]

theorem natDigitsAux_length_le :
    ∀ (fuel n k : ℕ), n < 10 ^ fuel → n < 10 ^ k → 1 ≤ k →
      (natDigitsAux fuel n).length ≤ k := by
  intro fuel
  induction fuel with
  | zero => intro n k _ _ _; simp [natDigitsAux]
  | succ fuel ih =>
    intro n k hf hk hk1
    by_cases hn : n < 10
    · rw [show natDigitsAux (fuel + 1) n = [Char.ofNat (48 + n)] by
        simp [natDigitsAux, hn]]
      simpa using hk1
    · rw [show natDigitsAux (fuel + 1) n
          = natDigitsAux fuel (n / 10) ++ [Char.ofNat (48 + n % 10)] by
        simp [natDigitsAux, hn]]
      have hk2 : 2 ≤ k := by
        by_contra hcon
        have : k = 1 := by omega
        subst this
        simp at hk
        omega
      have hdivf : n / 10 < 10 ^ fuel := by
        rw [Nat.div_lt_iff_lt_mul (by norm_num)]
        calc n < 10 ^ (fuel + 1) := hf
          _ = 10 ^ fuel * 10 := by ring
      have hdivk : n / 10 < 10 ^ (k - 1) := by
        rw [Nat.div_lt_iff_lt_mul (by norm_num)]
        calc n < 10 ^ k := hk
          _ = 10 ^ (k - 1) * 10 := by
            rw [← pow_succ]
            congr 1
            omega
      have := ih (n / 10) (k - 1) hdivf hdivk (by omega)
      simp only [List.length_append, List.length_cons, List.length_nil]
      omega

theorem natDigitsAux_length_ge :
    ∀ (fuel n k : ℕ), n < 10 ^ fuel → 10 ^ k ≤ n →
      k + 1 ≤ (natDigitsAux fuel n).length := by
  intro fuel
  induction fuel with
  | zero =>
    intro n k hf hk
    exfalso
    have h1 : 1 ≤ 10 ^ k := Nat.one_le_pow _ _ (by norm_num)
    simp at hf
    omega
  | succ fuel ih =>
    intro n k hf hk
    by_cases hn : n < 10
    · rw [show natDigitsAux (fuel + 1) n = [Char.ofNat (48 + n)] by
        simp [natDigitsAux, hn]]
      have : k = 0 := by
        by_contra hcon
        have h1 : 10 ≤ 10 ^ k := by
          calc (10 : ℕ) = 10 ^ 1 := by norm_num
            _ ≤ 10 ^ k := Nat.pow_le_pow_right (by norm_num) (by omega)
        omega
      subst this
      simp
    · rw [show natDigitsAux (fuel + 1) n
          = natDigitsAux fuel (n / 10) ++ [Char.ofNat (48 + n % 10)] by
        simp [natDigitsAux, hn]]
      simp only [List.length_append, List.length_cons, List.length_nil]
      cases k with
      | zero => omega
      | succ k' =>
        have hdivf : n / 10 < 10 ^ fuel := by
          rw [Nat.div_lt_iff_lt_mul (by norm_num)]
          calc n < 10 ^ (fuel + 1) := hf
            _ = 10 ^ fuel * 10 := by ring
        have hdivk : 10 ^ k' ≤ n / 10 := by
          rw [Nat.le_div_iff_mul_le (by norm_num)]
          calc 10 ^ k' * 10 = 10 ^ (k' + 1) := (pow_succ 10 k').symm
            _ ≤ n := hk
        have := ih (n / 10) k' hdivf hdivk
        omega

theorem isDigit_not_ws {c : Char} (h : c.isDigit = true) : c.isWhitespace = false := by
  cases hws : c.isWhitespace
  · rfl
  · exfalso
    have hmem : c = ' ' ∨ c = '\t' ∨ c = '\r' ∨ c = '\n' := by
      simpa [Char.isWhitespace, or_assoc] using hws
    rcases hmem with rfl | rfl | rfl | rfl <;> simp [Char.isDigit] at h

theorem dropWhile_eq_self_of_all {p : Char → Bool} {l : List Char}
    (h : ∀ c ∈ l, p c = false) : l.dropWhile p = l := by
  cases l with
  | nil => rfl
  | cons c cs =>
    rw [List.dropWhile_cons, if_neg]
    rw [h c (List.mem_cons_self _ _)]
    simp

theorem pyStrip_eq_self_of_nonws {l : List Char}
    (h : ∀ c ∈ l, c.isWhitespace = false) : pyStrip l = l := by
  unfold pyStrip stripStart
  rw [dropWhile_eq_self_of_all h]
  rw [dropWhile_eq_self_of_all (fun c hc => h c (List.mem_reverse.mp hc))]
  exact List.reverse_reverse l

theorem pyIntOfString_digits {l : List Char} (hne : l ≠ [])
    (hd : ∀ c ∈ l, c.isDigit = true) :
    pyIntOfString ⟨l⟩ = some (natOfDigits l : Int) := by
  cases l with
  | nil => exact absurd rfl hne
  | cons c cs =>
    have hdc : c.isDigit = true := hd c (List.mem_cons_self _ _)
    have hc1 : c ≠ '-' := by rintro rfl; simp [Char.isDigit] at hdc
    have hc2 : c ≠ '+' := by rintro rfl; simp [Char.isDigit] at hdc
    show (let core : Int × List Char :=
        if c = '-' then ((-1 : Int), cs)
        else if c = '+' then ((1 : Int), cs)
        else ((1 : Int), c :: cs)
      if core.2 ≠ [] ∧ core.2.all Char.isDigit then
        some (core.1 * (natOfDigits core.2 : Int))
      else none) = some (natOfDigits (c :: cs) : Int)
    rw [if_neg hc1, if_neg hc2]
    rw [if_pos ⟨by simp, List.all_eq_true.mpr hd⟩]
    simp

theorem firstEntry_all_none (st : StoreModel) :
    ∀ ps : List String, (∀ p ∈ ps, st.entry p = none) →
      firstEntry st ps = .ok none := by
  intro ps
  induction ps with
  | nil => intro _; rfl
  | cons p ps ih =>
    intro h
    unfold firstEntry
    rw [h p (List.mem_cons_self _ _)]
    exact ih (fun q hq => h q (List.mem_cons_of_mem p hq))

/-! ### Claims C7 and C10 -/

/-- C7 counterexample: `_cik10` never truncates.  The 11-digit identifier
`"12345678901"` is accepted and normalized to an 11-character key, not a
10-digit one as the claim states. -/
theorem C7_cik10_counterexample :
    storeCik10 (.inl "12345678901") = some "12345678901" ∧
    ("12345678901" : String).length = 11 := by
  constructor
  · rfl
  · rfl

/-- C7 (amended): `SubmissionsStore.get` accepts an identifier in any
numeric form — string or integer, with or without leading zeros — and
normalizes it by zero-LEFT-PADDING its decimal value to (at least) 10
digits; identifiers whose value needs more than ten digits are NOT
truncated (the key keeps all digits).  For every identifier whose document
is present neither in the cache nor at any backing location, `get` returns
`None` (caching it) and never raises. -/
theorem C7_store_get (s : String) (n : Int) (m : ℕ) (st : StoreModel)
    (cache : List (String × Option Subs)) (cik : String ⊕ Int) (cik10 : String) :
    (pyIntOfString (pyStripS s) = some n → storeCik10 (.inl s) = some (formatD10 n)) ∧
    storeCik10 (.inr (m : Int)) = some (formatD10 (m : Int)) ∧
    (m < 10 ^ 10 → (formatD10 (m : Int)).length = 10) ∧
    (10 ^ 10 ≤ m → formatD10 (m : Int) = ⟨natDigits m⟩ ∧ 11 ≤ (formatD10 (m : Int)).length) ∧
    (storeCik10 cik = some cik10 →
      cacheFind cache cik10 = none →
      (∀ p ∈ storePaths st cik10, st.entry p = none) →
      storeGet st cache cik = .ok (none, (cik10, none) :: cache)) := by
  have hnatd : ∀ k : ℕ, formatD10 (k : Int) = ⟨zfill 10 (natDigits k)⟩ := by
    intro k
    unfold formatD10
    rw [if_neg (by exact Int.not_lt.mpr (Int.natCast_nonneg k))]
    rw [Int.toNat_natCast]
  refine ⟨?_, ?_, ?_, ?_, ?_⟩
  · intro h
    unfold storeCik10
    show (pyIntOfString (pyStripS s)).map formatD10 = _
    rw [h]
    rfl
  · unfold storeCik10
    show (pyIntOfString (pyStripS (intRepr (m : Int)))).map formatD10 = _
    have hrepr : intRepr (m : Int) = ⟨natDigits m⟩ := by
      unfold intRepr
      rw [if_neg (by exact Int.not_lt.mpr (Int.natCast_nonneg m))]
      rw [Int.toNat_natCast]
    rw [hrepr]
    have hstrip : pyStripS ⟨natDigits m⟩ = ⟨natDigits m⟩ := by
      unfold pyStripS
      have : pyStrip (natDigits m) = natDigits m :=
        pyStrip_eq_self_of_nonws
          (fun c hc => isDigit_not_ws (natDigitsAux_all_digit _ _ c hc))
      show (⟨pyStrip (⟨natDigits m⟩ : String).toList⟩ : String) = _
      rw [show (⟨natDigits m⟩ : String).toList = natDigits m from rfl, this]
    rw [hstrip]
    have hpi := pyIntOfString_digits (l := natDigits m)
      (natDigitsAux_ne_nil (m + 1) m (by omega))
      (fun c hc => natDigitsAux_all_digit _ _ c hc)
    rw [hpi, natOfDigits_natDigits]
    rfl
  · intro hm
    rw [hnatd m]
    show (zfill 10 (natDigits m)).length = 10
    exact zfill_length_of_le
      (natDigitsAux_length_le (m + 1) m 10 (lt_ten_pow_succ_self m) hm (by norm_num))
  · intro hm
    have hlen : 11 ≤ (natDigits m).length :=
      natDigitsAux_length_ge (m + 1) m 10 (lt_ten_pow_succ_self m) hm
    constructor
    · rw [hnatd m]
      rw [zfill_length_of_ge (by omega)]
    · rw [hnatd m, zfill_length_of_ge (by omega)]
      exact hlen
  · intro hcik hcache hnone
    unfold storeGet
    rw [hcik]
    show (match cacheFind cache cik10 with
      | some v => Except.ok (v, cache)
      | none =>
        match firstEntry st (storePaths st cik10) with
        | .error _ => Except.error "json parse error"
        | .ok data => Except.ok (data, (cik10, data) :: cache)) = _
    rw [hcache, firstEntry_all_none st _ hnone]

/-- C7 witness: the amended statement at a leading-zero string identifier
and an empty backing store. -/
theorem C7_store_get_witness :
    storeCik10 (.inl "0123") = some "0000000123" ∧
    storeGet { isZip := true, entry := fun _ => none, subdirExists := false } []
        (.inl "0123")
      = .ok (none, [("0000000123", none)]) := by
  constructor
  · exact ((C7_store_get "0123" 123 0
        { isZip := true, entry := fun _ => none, subdirExists := false } [] (.inl "0123")
        "0000000123").1 (by decide)).trans (by decide)
  · exact (C7_store_get "0123" 123 0
      { isZip := true, entry := fun _ => none, subdirExists := false } [] (.inl "0123")
      "0000000123").2.2.2.2 (by decide) rfl (fun p _ => rfl)

/-- C10: with a submissions store configured, `SecClient.get_submissions`
never consults the network for any identifier, returns the store's
document, and converts any exception the store raises into `None` (a
silent lookup miss). -/
theorem C10_client_offline (sget : String → Except Unit (Option Subs))
    (net : String → Option Subs) (cik : String ⊕ Int) :
    (getSubmissionsClient (some sget) net cik).2 = false ∧
    (∀ cik10, normalizeCik10 cik = some cik10 →
      (getSubmissionsClient (some sget) net cik).1
        = .ok (match sget cik10 with | .error _ => none | .ok doc => doc)) := by
  constructor
  · unfold getSubmissionsClient
    cases h : normalizeCik10 cik
    · rfl
    · rfl
  · intro cik10 h
    have hred : (getSubmissionsClient (some sget) net cik).1
        = (match sget cik10 with
            | .error _ => Except.ok none
            | .ok doc => Except.ok doc) := by
      unfold getSubmissionsClient
      rw [h]
    rw [hred]
    cases sget cik10 <;> rfl

/-- C10 witness: a store that always raises yields `ok none` with the
network untouched. -/
theorem C10_client_offline_witness :
    (getSubmissionsClient (some (fun _ => .error ())) (fun _ => some {}) (.inr 1)).2 = false ∧
    (getSubmissionsClient (some (fun _ => .error ())) (fun _ => some {}) (.inr 1)).1
      = .ok none := by
  have h := C10_client_offline (fun _ => .error ()) (fun _ => some {}) (.inr 1)
  exact ⟨h.1, (h.2 "0000000001" (by decide)).trans rfl⟩

/-! ### The orchestrator

Source: `orchestrator.py` lines 74–204.  The collaborators that live in
modules outside `src/` are parameters: `gen` is
`generate_candidates(·, name_map, threshold, limit)`, `resolveCik` is
`resolution.resolve_cik(·, ·, min_accept, gap_accept, keep_top=3)` (its
result dict read through `final.get(k, default)` is the `Resolution`
record), and `getSic` is `SicResolver.get_sic`.  `run_row` and the per-row
body of `run_csv` share the same literal pipeline, embedded once as
`rowPipeline`. -/

structure Resolution where
  status : String := "not_found"
  reason : String := ""
  cik10 : String := ""
deriving DecidableEq

structure SicInfo where
  sic : String := ""
  sicDescription : String := ""
deriving DecidableEq

structure RowOut where
  name : String
  city : String
  zip5 : String
  status : String
  reason : String
  cik10 : String
  sic : String
  sic_description : String
  industry_subtype : String
  ambiguous_forced : Bool
deriving DecidableEq

structure CsvRow where
  name : String
  city : String
  zip : String
deriving DecidableEq

/-- The output record before any classification attachment
(orchestrator.py:94–98 and 172–179). -/
def rowPipelineBase (dispName city zip5 : String) (final : Resolution) : RowOut :=
  { name := dispName
    city := city
    zip5 := zip5
    status := final.status
    reason := final.reason
    cik10 := final.cik10
    sic := ""
    sic_description := ""
    industry_subtype := ""
    ambiguous_forced := false }

/-- The decision tail shared by `run_row` (orchestrator.py:100–119) and the
`run_csv` row body (orchestrator.py:181–200): attach classification on an
accepted identifier; otherwise, when the resolution is ambiguous, forcing
is enabled and the ranked list is non-empty, attach the top candidate's
identifier and classification, set the `ambiguous_forced` flag and extend
the reason. -/
def rowPipelineOut (getSic : String → Option SicInfo) (force : Bool)
    (ranked : List RankedCandidate) (final : Resolution)
    (dispName city zip5 : String) : RowOut :=
  let base := rowPipelineBase dispName city zip5 final
  if final.status = "ok" ∧ final.cik10 ≠ "" then
    match getSic final.cik10 with
    | some info =>
      { base with
        sic := info.sic
        sic_description := info.sicDescription
        industry_subtype := info.sicDescription }
    | none => base
  else if final.status = "ambiguous" ∧ force = true then
    match ranked with
    | [] => base
    | top1 :: _ =>
      let forced := top1.cik10
      let base1 := { base with cik10 := if forced ≠ "" then forced else base.cik10 }
      let base2 :=
        match (if forced ≠ "" then getSic forced else none) with
        | some i =>
          { base1 with
            sic := i.sic
            sic_description := i.sicDescription
            industry_subtype := i.sicDescription }
        | none => base1
      { base2 with
        ambiguous_forced := true
        reason := (if base.reason = "" then "ambiguous" else base.reason)
          ++ " (ambiguous: returning industry_subtype for top candidate)" }
  else base

/-- The full row pipeline: candidate generation on the normalized name,
offline ranking, resolution, then the decision tail. -/
def rowPipeline (gen : String → List Candidate) (sim : String → String → ℚ)
    (getSubs : String → Option Subs)
    (resolveCik : List RankedCandidate → String → Resolution)
    (getSic : String → Option SicInfo) (force : Bool) (limit : ℕ)
    (dispName nameIn city zip5 : String) : RowOut :=
  rowPipelineOut getSic force
    (rankCandidates sim getSubs (gen (normName nameIn)) city zip5 limit).1
    (resolveCik (rankCandidates sim getSubs (gen (normName nameIn)) city zip5 limit).1 zip5)
    dispName city zip5

/-- Embedding of `Orchestrator.run_row` (orchestrator.py:74–119). -/
def runRow (gen : String → List Candidate) (sim : String → String → ℚ)
    (getSubs : String → Option Subs)
    (resolveCik : List RankedCandidate → String → Resolution)
    (getSic : String → Option SicInfo) (force : Bool) (limit : ℕ)
    (name city zip_code : String) : RowOut :=
  rowPipeline gen sim getSubs resolveCik getSic force limit
    name name (pyStripS city) (zip5Orch zip_code)

/-- The short-circuit row emitted for missing inputs
(orchestrator.py:152–159). -/
def missingRowOut (r : CsvRow) : RowOut :=
  { name := pyStripS r.name
    city := pyStripS r.city
    zip5 := zip5Orch (pyStripS r.zip)
    status := "not_found"
    reason := "missing inputs"
    cik10 := ""
    sic := ""
    sic_description := ""
    industry_subtype := ""
    ambiguous_forced := false }

/-- Embedding of one iteration of the `run_csv` row loop
(orchestrator.py:147–200): strip the three cells, short-circuit when one of
them is falsy, and otherwise run the pipeline.  Note that the postal cell
goes through `_zip5` BEFORE the falsy test, and `_zip5` maps the empty
string to `"00000"`. -/
def runCsvRow (gen : String → List Candidate) (sim : String → String → ℚ)
    (getSubs : String → Option Subs)
    (resolveCik : List RankedCandidate → String → Resolution)
    (getSic : String → Option SicInfo) (force : Bool) (limit : ℕ)
    (r : CsvRow) : RowOut :=
  if pyStripS r.name = "" ∨ pyStripS r.city = "" ∨ zip5Orch (pyStripS r.zip) = "" then
    missingRowOut r
  else
    rowPipeline gen sim getSubs resolveCik getSic force limit
      (pyStripS r.name) (pyStripS r.name) (pyStripS r.city) (zip5Orch (pyStripS r.zip))

/-- Embedding of the `run_csv` row loop (orchestrator.py:144–200): every
row yields exactly one output record and the loop always continues to the
next row. -/
def runCsv (gen : String → List Candidate) (sim : String → String → ℚ)
    (getSubs : String → Option Subs)
    (resolveCik : List RankedCandidate → String → Resolution)
    (getSic : String → Option SicInfo) (force : Bool) (limit : ℕ)
    (rows : List CsvRow) : List RowOut :=
  rows.map (runCsvRow gen sim getSubs resolveCik getSic force limit)

/-! ### The forcing branch, characterized -/

theorem rowPipelineOut_forced (getSic : String → Option SicInfo)
    (ranked : List RankedCandidate) (final : Resolution)
    (dispName city zip5 : String)
    (hamb : final.status = "ambiguous") (hne : ranked ≠ []) :
    (rowPipelineOut getSic true ranked final dispName city zip5).ambiguous_forced = true ∧
    (rowPipelineOut getSic true ranked final dispName city zip5).status = "ambiguous" ∧
    (rowPipelineOut getSic true ranked final dispName city zip5).reason
      = (if final.reason = "" then "ambiguous" else final.reason)
        ++ " (ambiguous: returning industry_subtype for top candidate)" ∧
    (rowPipelineOut getSic true ranked final dispName city zip5).cik10
      = (if (ranked.head hne).cik10 ≠ "" then (ranked.head hne).cik10 else final.cik10) ∧
    ((ranked.head hne).cik10 ≠ "" →
      (rowPipelineOut getSic true ranked final dispName city zip5).sic
        = (match getSic (ranked.head hne).cik10 with | some i => i.sic | none => "") ∧
      (rowPipelineOut getSic true ranked final dispName city zip5).industry_subtype
        = (match getSic (ranked.head hne).cik10 with
            | some i => i.sicDescription | none => "")) := by
  have hnok : ¬(final.status = "ok" ∧ final.cik10 ≠ "") := by
    rintro ⟨h1, _⟩
    rw [hamb] at h1
    exact absurd h1 (by decide)
  cases ranked with
  | nil => exact absurd rfl hne
  | cons top1 rest =>
    unfold rowPipelineOut
    rw [if_neg hnok, if_pos ⟨hamb, rfl⟩]
    show ((match (top1 :: rest : List RankedCandidate) with
      | [] => rowPipelineBase dispName city zip5 final
      | top1 :: _ =>
        let forced := top1.cik10
        let base1 := { rowPipelineBase dispName city zip5 final with
          cik10 := if forced ≠ "" then forced else (rowPipelineBase dispName city zip5 final).cik10 }
        let base2 :=
          match (if forced ≠ "" then getSic forced else none) with
          | some i =>
            { base1 with
              sic := i.sic
              sic_description := i.sicDescription
              industry_subtype := i.sicDescription }
          | none => base1
        { base2 with
          ambiguous_forced := true
          reason := (if (rowPipelineBase dispName city zip5 final).reason = ""
              then "ambiguous" else (rowPipelineBase dispName city zip5 final).reason)
            ++ " (ambiguous: returning industry_subtype for top candidate)" }).ambiguous_forced
        = true) ∧ _
    by_cases hcik : top1.cik10 ≠ ""
    · cases hinfo : getSic top1.cik10 with
      | none => simp [hcik, hinfo, rowPipelineBase, hamb]
      | some i => simp [hcik, hinfo, rowPipelineBase, hamb]
    · simp [hcik, rowPipelineBase, hamb]

theorem rowPipelineOut_unforced (getSic : String → Option SicInfo)
    (ranked : List RankedCandidate) (final : Resolution)
    (dispName city zip5 : String) (hamb : final.status = "ambiguous") :
    rowPipelineOut getSic false ranked final dispName city zip5
      = rowPipelineBase dispName city zip5 final := by
  have hnok : ¬(final.status = "ok" ∧ final.cik10 ≠ "") := by
    rintro ⟨h1, _⟩
    rw [hamb] at h1
    exact absurd h1 (by decide)
  unfold rowPipelineOut
  rw [if_neg hnok, if_neg (by rintro ⟨_, h2⟩; exact absurd h2 (by decide))]

theorem zip5Orch_length (s : String) : (zip5Orch s).length = 5 := by
  show (zip5Orch s).data.length = 5
  unfold zip5Orch
  by_cases h : 5 ≤ (digitsOf s).length
  · simp [h]
  · rw [if_neg h]
    exact zfill_length_of_le (by omega)

theorem zip5Orch_ne_empty (s : String) : zip5Orch s ≠ "" := by
  intro hcon
  have := zip5Orch_length s
  rw [hcon] at this
  simp at this

/-- A row with non-empty stripped name and city cells is never
short-circuited: it runs the full pipeline (the postal test cannot fire
because `_zip5` never returns an empty string). -/
theorem runCsvRow_not_missing (gen : String → List Candidate)
    (sim : String → String → ℚ) (getSubs : String → Option Subs)
    (resolveCik : List RankedCandidate → String → Resolution)
    (getSic : String → Option SicInfo) (force : Bool) (limit : ℕ) (r : CsvRow)
    (hn : pyStripS r.name ≠ "") (hc : pyStripS r.city ≠ "") :
    runCsvRow gen sim getSubs resolveCik getSic force limit r
      = rowPipeline gen sim getSubs resolveCik getSic force limit
          (pyStripS r.name) (pyStripS r.name) (pyStripS r.city)
          (zip5Orch (pyStripS r.zip)) := by
  have hcond : ¬(pyStripS r.name = "" ∨ pyStripS r.city = "" ∨
      zip5Orch (pyStripS r.zip) = "") := by
    push_neg
    exact ⟨hn, hc, zip5Orch_ne_empty _⟩
  unfold runCsvRow
  rw [if_neg hcond]

/-! ### Claims C4 and C5 -/

/-- C4 counterexample: a batch row with an empty postal-code cell is NOT
short-circuited to `status=not_found` / `reason="missing inputs"`: `_zip5`
maps the empty cell to `"00000"`, which is truthy, so the row runs the full
pipeline (here the resolver visibly runs: its output, carrying the
normalized postal code `"00000"`, becomes the row's status and reason). -/
theorem C4_missing_postal_counterexample :
    (runCsvRow (fun _ => []) (fun _ _ => 0) (fun _ => none)
        (fun _ z => { status := "resolver-ran", reason := z, cik10 := "" })
        (fun _ => none) false 10
        { name := "ACME", city := "SPRINGFIELD", zip := "" }).status = "resolver-ran" ∧
    (runCsvRow (fun _ => []) (fun _ _ => 0) (fun _ => none)
        (fun _ z => { status := "resolver-ran", reason := z, cik10 := "" })
        (fun _ => none) false 10
        { name := "ACME", city := "SPRINGFIELD", zip := "" }).reason = "00000" ∧
    (runCsvRow (fun _ => []) (fun _ _ => 0) (fun _ => none)
        (fun _ z => { status := "resolver-ran", reason := z, cik10 := "" })
        (fun _ => none) false 10
        { name := "ACME", city := "SPRINGFIELD", zip := "" }).status ≠ "not_found" ∧
    (runCsvRow (fun _ => []) (fun _ _ => 0) (fun _ => none)
        (fun _ z => { status := "resolver-ran", reason := z, cik10 := "" })
        (fun _ => none) false 10
        { name := "ACME", city := "SPRINGFIELD", zip := "" }).reason ≠ "missing inputs" := by
  refine ⟨rfl, rfl, by decide, by decide⟩

/-- C4 (amended): a batch row whose NAME or CITY cell is missing or empty
is short-circuited to `status=not_found`, `reason="missing inputs"`,
without invoking candidate generation, scoring, resolution or
classification (the output is the same for every choice of those
collaborators), and processing continues (one output row per input row).
A missing POSTAL cell, however, does not short-circuit: `_zip5` never
returns an empty string (an empty cell becomes `"00000"`), so such a row
runs the full pipeline. -/
theorem C4_missing_inputs (gen : String → List Candidate) (sim : String → String → ℚ)
    (getSubs : String → Option Subs)
    (resolveCik : List RankedCandidate → String → Resolution)
    (getSic : String → Option SicInfo) (force : Bool) (limit : ℕ)
    (rows : List CsvRow) (r : CsvRow) :
    (runCsv gen sim getSubs resolveCik getSic force limit rows).length = rows.length ∧
    zip5Orch (pyStripS r.zip) ≠ "" ∧
    (pyStripS r.name = "" ∨ pyStripS r.city = "" →
      runCsvRow gen sim getSubs resolveCik getSic force limit r = missingRowOut r ∧
      (∀ (gen' : String → List Candidate) (sim' : String → String → ℚ)
         (getSubs' : String → Option Subs)
         (resolveCik' : List RankedCandidate → String → Resolution)
         (getSic' : String → Option SicInfo) (force' : Bool) (limit' : ℕ),
        runCsvRow gen' sim' getSubs' resolveCik' getSic' force' limit' r
          = runCsvRow gen sim getSubs resolveCik getSic force limit r)) ∧
    (pyStripS r.name ≠ "" → pyStripS r.city ≠ "" →
      runCsvRow gen sim getSubs resolveCik getSic force limit r
        = rowPipeline gen sim getSubs resolveCik getSic force limit
            (pyStripS r.name) (pyStripS r.name) (pyStripS r.city)
            (zip5Orch (pyStripS r.zip))) := by
  refine ⟨List.length_map _ _, zip5Orch_ne_empty _, ?_, ?_⟩
  · intro h
    have hcond : pyStripS r.name = "" ∨ pyStripS r.city = "" ∨
        zip5Orch (pyStripS r.zip) = "" := by tauto
    constructor
    · unfold runCsvRow
      rw [if_pos hcond]
    · intro gen' sim' getSubs' resolveCik' getSic' force' limit'
      unfold runCsvRow
      rw [if_pos hcond, if_pos hcond]
  · exact runCsvRow_not_missing gen sim getSubs resolveCik getSic force limit r

/-- C4 witness: a row whose name cell is only whitespace short-circuits. -/
theorem C4_missing_inputs_witness :
    runCsvRow (fun _ => []) (fun _ _ => 0) (fun _ => none) (fun _ _ => {})
        (fun _ => none) true 10 { name := " ", city := "X", zip := "1" }
      = missingRowOut { name := " ", city := "X", zip := "1" } :=
  ((C4_missing_inputs (fun _ => []) (fun _ _ => 0) (fun _ => none) (fun _ _ => {})
      (fun _ => none) true 10 [] { name := " ", city := "X", zip := "1" }).2.2.1
    (Or.inl (by decide))).1

/-- C5: when the resolver's decision for a row is ambiguous, forcing is
enabled and the ranked list is non-empty, the output row of `run_row`
carries the top-ranked candidate's identifier and classification fields,
sets `ambiguous_forced = true`, keeps `status = "ambiguous"`, and extends
the reason with an explicit annotation (the override is never silent);
with forcing disabled an ambiguous row gets no identifier beyond the
resolver's own (empty, by the Resolution data model) and no classification
fields.  The `run_csv` row body delegates to the identical pipeline, so the
same holds there. -/
theorem C5_ambiguous_forcing (gen : String → List Candidate)
    (sim : String → String → ℚ) (getSubs : String → Option Subs)
    (resolveCik : List RankedCandidate → String → Resolution)
    (getSic : String → Option SicInfo) (force : Bool) (limit : ℕ)
    (name city zip_code : String) (r : CsvRow) :
    (∀ (hamb : (resolveCik (rankCandidates sim getSubs (gen (normName name))
          (pyStripS city) (zip5Orch zip_code) limit).1 (zip5Orch zip_code)).status
          = "ambiguous")
       (hne : (rankCandidates sim getSubs (gen (normName name))
          (pyStripS city) (zip5Orch zip_code) limit).1 ≠ []),
      (runRow gen sim getSubs resolveCik getSic true limit name city
          zip_code).ambiguous_forced = true ∧
      (runRow gen sim getSubs resolveCik getSic true limit name city
          zip_code).status = "ambiguous" ∧
      (runRow gen sim getSubs resolveCik getSic true limit name city
          zip_code).reason
        = (if (resolveCik (rankCandidates sim getSubs (gen (normName name))
              (pyStripS city) (zip5Orch zip_code) limit).1 (zip5Orch zip_code)).reason = ""
            then "ambiguous"
            else (resolveCik (rankCandidates sim getSubs (gen (normName name))
              (pyStripS city) (zip5Orch zip_code) limit).1 (zip5Orch zip_code)).reason)
          ++ " (ambiguous: returning industry_subtype for top candidate)" ∧
      (runRow gen sim getSubs resolveCik getSic true limit name city
          zip_code).cik10
        = (if ((rankCandidates sim getSubs (gen (normName name))
              (pyStripS city) (zip5Orch zip_code) limit).1.head hne).cik10 ≠ ""
            then ((rankCandidates sim getSubs (gen (normName name))
              (pyStripS city) (zip5Orch zip_code) limit).1.head hne).cik10
            else (resolveCik (rankCandidates sim getSubs (gen (normName name))
              (pyStripS city) (zip5Orch zip_code) limit).1 (zip5Orch zip_code)).cik10) ∧
      (((rankCandidates sim getSubs (gen (normName name))
          (pyStripS city) (zip5Orch zip_code) limit).1.head hne).cik10 ≠ "" →
        (runRow gen sim getSubs resolveCik getSic true limit name city
            zip_code).sic
          = (match getSic ((rankCandidates sim getSubs (gen (normName name))
              (pyStripS city) (zip5Orch zip_code) limit).1.head hne).cik10 with
             | some i => i.sic | none => "") ∧
        (runRow gen sim getSubs resolveCik getSic true limit name city
            zip_code).industry_subtype
          = (match getSic ((rankCandidates sim getSubs (gen (normName name))
              (pyStripS city) (zip5Orch zip_code) limit).1.head hne).cik10 with
             | some i => i.sicDescription | none => ""))) ∧
    (∀ (hamb : (resolveCik (rankCandidates sim getSubs (gen (normName name))
          (pyStripS city) (zip5Orch zip_code) limit).1 (zip5Orch zip_code)).status
          = "ambiguous"),
      (runRow gen sim getSubs resolveCik getSic false limit name city
          zip_code).cik10
        = (resolveCik (rankCandidates sim getSubs (gen (normName name))
            (pyStripS city) (zip5Orch zip_code) limit).1 (zip5Orch zip_code)).cik10 ∧
      (runRow gen sim getSubs resolveCik getSic false limit name city
          zip_code).sic = "" ∧
      (runRow gen sim getSubs resolveCik getSic false limit name city
          zip_code).sic_description = "" ∧
      (runRow gen sim getSubs resolveCik getSic false limit name city
          zip_code).industry_subtype = "" ∧
      (runRow gen sim getSubs resolveCik getSic false limit name city
          zip_code).ambiguous_forced = false) ∧
    (pyStripS r.name ≠ "" → pyStripS r.city ≠ "" →
      runCsvRow gen sim getSubs resolveCik getSic force limit r
        = rowPipeline gen sim getSubs resolveCik getSic force limit
            (pyStripS r.name) (pyStripS r.name) (pyStripS r.city)
            (zip5Orch (pyStripS r.zip))) := by
  refine ⟨?_, ?_, ?_⟩
  · intro hamb hne
    exact rowPipelineOut_forced getSic _ _ name (pyStripS city) (zip5Orch zip_code) hamb hne
  · intro hamb
    have h := rowPipelineOut_unforced getSic
      (rankCandidates sim getSubs (gen (normName name))
        (pyStripS city) (zip5Orch zip_code) limit).1
      (resolveCik (rankCandidates sim getSubs (gen (normName name))
        (pyStripS city) (zip5Orch zip_code) limit).1 (zip5Orch zip_code))
      name (pyStripS city) (zip5Orch zip_code) hamb
    have hr : runRow gen sim getSubs resolveCik getSic false limit name city zip_code
        = rowPipelineBase name (pyStripS city) (zip5Orch zip_code)
            (resolveCik (rankCandidates sim getSubs (gen (normName name))
              (pyStripS city) (zip5Orch zip_code) limit).1 (zip5Orch zip_code)) := h
    rw [hr]
    exact ⟨rfl, rfl, rfl, rfl, rfl⟩
  · exact runCsvRow_not_missing gen sim getSubs resolveCik getSic force limit r

/-- Concrete candidate generator for the C5 witness. -/
def c5gen : String → List Candidate :=
  fun _ => [{ cik10 := "0000000001", edgar_name := "ACME", name_score := 1 }]

/-- Concrete resolver for the C5 witness: always ambiguous, no identifier
chosen. -/
def c5resolve : List RankedCandidate → String → Resolution :=
  fun _ _ => { status := "ambiguous", reason := "low margin", cik10 := "" }

/-- Concrete classification lookup for the C5 witness. -/
def c5sic : String → Option SicInfo :=
  fun _ => some { sic := "7372", sicDescription := "Prepackaged Software" }

/-- C5 witness: forcing an ambiguous resolution attaches the top
candidate's identifier and classification, flags the override and extends
the reason. -/
theorem C5_ambiguous_forcing_witness :
    (runRow c5gen (fun _ _ => 0) (fun _ => none) c5resolve c5sic true 10
        "ACME" "X" "1").ambiguous_forced = true ∧
    (runRow c5gen (fun _ _ => 0) (fun _ => none) c5resolve c5sic true 10
        "ACME" "X" "1").status = "ambiguous" ∧
    (runRow c5gen (fun _ _ => 0) (fun _ => none) c5resolve c5sic true 10
        "ACME" "X" "1").cik10 = "0000000001" ∧
    (runRow c5gen (fun _ _ => 0) (fun _ => none) c5resolve c5sic true 10
        "ACME" "X" "1").sic = "7372" ∧
    (runRow c5gen (fun _ _ => 0) (fun _ => none) c5resolve c5sic true 10
        "ACME" "X" "1").reason
      = "low margin (ambiguous: returning industry_subtype for top candidate)" := by
  obtain ⟨h1, h2, h3, h4, h5⟩ :=
    (C5_ambiguous_forcing c5gen (fun _ _ => 0) (fun _ => none) c5resolve c5sic true 10
      "ACME" "X" "1" { name := "", city := "", zip := "" }).1 rfl (by decide)
  exact ⟨h1, h2, h4.trans (by decide), ((h5 (by decide)).1).trans (by decide),
    h3.trans (by decide)⟩
